import Mathlib

/-!
Shallow embedding of the StaticProgramAnalyzer core
(`src/intermediate_representation/ast.py`, `src/intermediate_representation/cfg.py`,
`src/analysis/solver.py`, `src/analysis/reaching_definitions.py`,
`src/analysis/live_variables.py`, `src/analysis/pointer_analysis.py`)
together with theorems settling the specification claims about it.

Python `dict`s are modelled as insertion-ordered association lists with
first-match lookup and in-place update; Python exceptions are modelled with
`Except String` (`KeyError`, `IndexError`) or a dedicated error type
(`NotImplementedError` for the analysis stubs).  Statement indices into the
ordered statement list are `Nat`; out-of-range access, which in Python would
raise `IndexError`, is threaded through `Except` where the source can reach
it and is otherwise guarded exactly as in the source.
-/

namespace StaticProgramAnalyzer

/-- `Statement` from `src/intermediate_representation/ast.py`: a lightweight
IR statement node with dataflow and control metadata. -/
structure Statement where
  sid : Nat
  text : String
  kind : String := "stmt"
  defs : List String := []
  uses : List String := []
  condition : Option String := none
  label : Option String := none
  target : Option String := none
  targets : List String := []
  synthetic : Bool := false
deriving DecidableEq, Repr

/-- `Program` from `src/intermediate_representation/ast.py`. -/
structure Program where
  statements : List Statement
  language : String := "unknown"
  source : Option String := none
deriving DecidableEq, Repr

/-- `CFGNode` from `src/intermediate_representation/cfg.py`: a CFG node
wrapping a statement; `successors`/`predecessors` are Python lists kept
duplicate-free by the membership checks in `add_edge`. -/
structure CFGNode where
  statement : Statement
  successors : List Nat := []
  predecessors : List Nat := []
deriving DecidableEq, Repr

/-- `CFG` from `src/intermediate_representation/cfg.py`.  `nodes` models the
Python `dict[int, CFGNode]` as an insertion-ordered association list. -/
structure CFG where
  nodes : List (Nat × CFGNode)
  entry : Option Nat
  exit : Option Nat
deriving DecidableEq, Repr

/-! ### Python `dict` helpers (insertion-ordered association lists) -/

/-- `k in d` for a Python dict. -/
def dictContains {κ α : Type} [BEq κ] (m : List (κ × α)) (k : κ) : Bool :=
  m.any (fun p => p.1 == k)

/-- `d.get(k)` for a Python dict: first-match lookup. -/
def dictGet? {κ α : Type} [BEq κ] (m : List (κ × α)) (k : κ) : Option α :=
  (m.find? (fun p => p.1 == k)).map (·.2)

/-- `d[k] = v` for a Python dict: update in place if the key exists,
otherwise append, preserving insertion order. -/
def dictInsert {κ α : Type} [BEq κ] (m : List (κ × α)) (k : κ) (v : α) : List (κ × α) :=
  if m.any (fun p => p.1 == k) then
    m.map (fun p => if p.1 == k then (k, v) else p)
  else
    m ++ [(k, v)]

/-- Mutate the value stored at key `k` (no-op when absent), modelling in-place
mutation of a dict entry. -/
def dictModify {κ α : Type} [BEq κ] (m : List (κ × α)) (k : κ) (f : α → α) : List (κ × α) :=
  m.map (fun p => if p.1 == k then (p.1, f p.2) else p)

/-- `s.add(x)` for a Python set of ints (only membership is ever queried). -/
def setAdd (s : List Nat) (x : Nat) : List Nat :=
  if x ∈ s then s else s ++ [x]

/-! ### CFG edge mutation (`CFG.add_edge`, `CFG.remove_edge`) -/

/-- `if target not in src_node.successors: src_node.successors.append(target)`. -/
def addSuccessor (target : Nat) (n : CFGNode) : CFGNode :=
  if target ∈ n.successors then n
  else { n with successors := n.successors ++ [target] }

/-- `if source not in tgt_node.predecessors: tgt_node.predecessors.append(source)`. -/
def addPredecessor (source : Nat) (n : CFGNode) : CFGNode :=
  if source ∈ n.predecessors then n
  else { n with predecessors := n.predecessors ++ [source] }

/-- `if target in src_node.successors: src_node.successors.remove(target)`
(Python `list.remove` drops the first occurrence; absent is a no-op here). -/
def removeSuccessor (target : Nat) (n : CFGNode) : CFGNode :=
  { n with successors := n.successors.erase target }

/-- `if source in tgt_node.predecessors: tgt_node.predecessors.remove(source)`. -/
def removePredecessor (source : Nat) (n : CFGNode) : CFGNode :=
  { n with predecessors := n.predecessors.erase source }

/-- `CFG.add_edge` from `cfg.py`: raises `KeyError` when either endpoint is
not a node; otherwise appends `target` to the source's successors and
`source` to the target's predecessors, each only when not already present. -/
def CFG.add_edge (cfg : CFG) (source target : Nat) : Except String CFG :=
  if ¬ (dictContains cfg.nodes source = true ∧ dictContains cfg.nodes target = true) then
    .error "CFG edge endpoints must exist in nodes."
  else
    let nodes1 := dictModify cfg.nodes source (addSuccessor target)
    let nodes2 := dictModify nodes1 target (addPredecessor source)
    .ok { cfg with nodes := nodes2 }

/-- `CFG.remove_edge` from `cfg.py`: silently returns (no error) when either
endpoint is not a node; otherwise removes the first occurrence of `target`
from the source's successors and of `source` from the target's predecessors. -/
def CFG.remove_edge (cfg : CFG) (source target : Nat) : Except String CFG :=
  if ¬ (dictContains cfg.nodes source = true ∧ dictContains cfg.nodes target = true) then
    .ok cfg
  else
    let nodes1 := dictModify cfg.nodes source (removeSuccessor target)
    let nodes2 := dictModify nodes1 target (removePredecessor source)
    .ok { cfg with nodes := nodes2 }

/-- `ControlInfo` from `cfg.py`. -/
structure ControlInfo where
  kind : String
  body_start : Option Nat
  body_end : Option Nat
  after_body : Option Nat
deriving DecidableEq, Repr

/-! ### Index helpers over the ordered statement list -/

/-- `ordered[i].kind`; total with default `""` on out-of-range access (every
use in `build_cfg` is in range, mirroring the Python source which never
indexes out of range there). -/
def kindAt (ordered : List Statement) (i : Nat) : String :=
  ((ordered.get? i).map (·.kind)).getD ""

/-- `ordered[i].sid`, threaded through `Except` (Python would raise
`IndexError` out of range). -/
def sidAtE (ordered : List Statement) (i : Nat) : Except String Nat :=
  match ordered.get? i with
  | some s => .ok s.sid
  | none => .error "IndexError"

/-- `_build_block_pairs` inner loop: fold over the enumerated statements with
the stack of open `block_start` indices. -/
def buildBlockPairsAux : List (Nat × Statement) → List Nat → List (Nat × Nat) →
    List Nat × List (Nat × Nat)
  | [], stack, pairs => (stack, pairs)
  | (idx, stmt) :: rest, stack, pairs =>
    if stmt.kind == "block_start" then
      buildBlockPairsAux rest (idx :: stack) pairs
    else if stmt.kind == "block_end" then
      match stack with
      | [] => buildBlockPairsAux rest [] pairs
      | start_idx :: stack' =>
        buildBlockPairsAux rest stack' (dictInsert pairs start_idx idx)
    else
      buildBlockPairsAux rest stack pairs

/-- `_build_block_pairs` from `cfg.py`: matches each `block_start` to its
`block_end` by nesting depth; a `block_end` with no open `block_start` is
skipped (the `and stack` guard) and unmatched `block_start`s are left
unpaired. -/
def buildBlockPairs (statements : List Statement) : List (Nat × Nat) :=
  (buildBlockPairsAux statements.enum [] []).2

/-- `_previous_non_synthetic` countdown: checks indices `i-1, i-2, …, 0`. -/
def prevNonSynthAux (ordered : List Statement) : Nat → Option Nat
  | 0 => none
  | i + 1 =>
    if ((ordered.get? i).map (·.synthetic)).getD false then prevNonSynthAux ordered i
    else some i

/-- `_previous_non_synthetic` from `cfg.py`. -/
def previousNonSynthetic (index : Nat) (ordered : List Statement) : Option Nat :=
  prevNonSynthAux ordered index

/-- `_body_range` from `cfg.py`: the body is the single following statement
or, when that statement is a `block_start`, the full paired block;
`after_body` is the statement index just past the body when it exists. -/
def bodyRange (index : Nat) (ordered : List Statement) (block_pairs : List (Nat × Nat)) :
    ControlInfo :=
  if index + 1 ≥ ordered.length then
    ⟨kindAt ordered index, none, none, none⟩
  else
    let start := index + 1
    let e :=
      if kindAt ordered start == "block_start" then (dictGet? block_pairs start).getD start
      else start
    let after := if e + 1 < ordered.length then some (e + 1) else none
    ⟨kindAt ordered index, some start, some e, after⟩

/-! ### `build_cfg` passes (`cfg.py`, lines 91-297), one definition per source
loop, threaded through `Except` because `CFG.add_edge` can raise. -/

/-- Statement kinds that never fall through to their textual successor. -/
def jumpKinds : List String := ["return", "break", "continue", "goto"]

/-- One step of the sequential-edge pass, for an adjacent statement pair. -/
def sequentialStep (c : CFG) (p : Statement × Statement) : Except String CFG :=
  if p.1.kind ∈ jumpKinds then .ok c
  else c.add_edge p.1.sid p.2.sid

/-- Sequential-edge pass (`cfg.py` lines 103-107): connect each statement to
its immediate textual successor unless its kind is in `jumpKinds`. -/
def sequentialPass (ordered : List Statement) (cfg : CFG) : Except String CFG :=
  (ordered.zip ordered.tail).foldlM sequentialStep cfg

/-- `block_owner` construction (`cfg.py` lines 110-114). -/
def buildBlockOwner (ordered : List Statement) (block_pairs : List (Nat × Nat)) :
    List (Nat × Nat) :=
  block_pairs.foldl (fun owner p =>
    match previousNonSynthetic p.1 ordered with
    | some o => dictInsert owner p.1 o
    | none => owner) []

/-- The statement kinds that get a `ControlInfo` entry. -/
def controlKinds : List String := ["if", "else_if", "else", "while", "for", "switch", "do"]

/-- `control_info` construction (`cfg.py` lines 116-119). -/
def buildControlInfo (ordered : List Statement) (block_pairs : List (Nat × Nat)) :
    List (Nat × ControlInfo) :=
  ordered.enum.foldl (fun ci p =>
    if p.2.kind ∈ controlKinds then dictInsert ci p.1 (bodyRange p.1 ordered block_pairs)
    else ci) []

/-- `do_tail_map` / `do_tail_set` construction (`cfg.py` lines 121-142): the
trailing `while` statement just after a `do` body is recorded as the loop's
tail condition node. -/
def buildDoTail (ordered : List Statement) (block_pairs block_owner : List (Nat × Nat))
    (control_info : List (Nat × ControlInfo)) : List (Nat × Nat) × List Nat :=
  let step1 := block_pairs.foldl (fun (acc : List (Nat × Nat) × List Nat) p =>
    match dictGet? block_owner p.1 with
    | none => acc
    | some owner_idx =>
      if kindAt ordered owner_idx ≠ "do" then acc
      else
        let tail_idx := p.2 + 1
        if tail_idx < ordered.length then
          if kindAt ordered tail_idx == "while" then
            (dictInsert acc.1 owner_idx tail_idx, setAdd acc.2 tail_idx)
          else acc
        else acc) ([], [])
  ordered.enum.foldl (fun acc p =>
    if p.2.kind ≠ "do" then acc
    else
      match dictGet? control_info p.1 with
      | none => acc
      | some info =>
        match info.after_body with
        | none => acc
        | some a =>
          if kindAt ordered a == "while" then (dictInsert acc.1 p.1 a, setAdd acc.2 a)
          else acc) step1

/-- Branch-edge pass for `if`/`else_if` (`cfg.py` lines 144-155): the false
branch gets an edge to `after_body` (the source's redundant `if`/`else` with
identical arms is kept). -/
def branchPass (ordered : List Statement) (control_info : List (Nat × ControlInfo))
    (cfg : CFG) : Except String CFG :=
  ordered.enum.foldlM (fun c p =>
    if p.2.kind ∉ ["if", "else_if"] then .ok c
    else
      match dictGet? control_info p.1 with
      | none => .ok c
      | some info =>
        match info.after_body with
        | none => .ok c
        | some a => do
          let afterSid ← sidAtE ordered a
          if kindAt ordered a ∈ ["else", "else_if"] then
            c.add_edge p.2.sid afterSid
          else
            c.add_edge p.2.sid afterSid) cfg

/-- `_find_else_chain_join` (`cfg.py` lines 157-171), with explicit fuel: the
walk strictly advances through the statement list, so `ordered.length + 1`
steps always suffice. -/
def findElseChainJoin (ordered : List Statement) (control_info : List (Nat × ControlInfo)) :
    Nat → Nat → Option Nat → Option Nat
  | 0, _, join => join
  | fuel + 1, current, join =>
    if kindAt ordered current ∈ ["else", "else_if"] then
      match dictGet? control_info current with
      | none => join
      | some ci =>
        match ci.after_body with
        | none => none
        | some j =>
          if j < ordered.length ∧ kindAt ordered j ∈ ["else", "else_if"] then
            findElseChainJoin ordered control_info fuel j (some j)
          else some j
    else join

/-- Else-chain join fix-up passes (`cfg.py` lines 173-200): a branch body must
not fall through into the next `else`/`else_if` head; the fallthrough edge is
replaced by an edge to the join after the whole chain.  The source has two
textually identical loops differing only in the kind filter
(`{if, else_if}` then `{else_if, else}`), captured by the `kinds` argument. -/
def elseJoinPass (kinds : List String) (ordered : List Statement)
    (control_info : List (Nat × ControlInfo)) (cfg : CFG) : Except String CFG :=
  ordered.enum.foldlM (fun c p =>
    if p.2.kind ∉ kinds then .ok c
    else
      match dictGet? control_info p.1 with
      | none => .ok c
      | some info =>
        match info.body_end, info.after_body with
        | some bodyEnd, some a =>
          if kindAt ordered a ∉ ["else", "else_if"] then .ok c
          else
            match findElseChainJoin ordered control_info (ordered.length + 1) a none with
            | none => .ok c
            | some join_idx => do
              let bodyEndSid ← sidAtE ordered bodyEnd
              let afterSid ← sidAtE ordered a
              let joinSid ← sidAtE ordered join_idx
              let c ← c.remove_edge bodyEndSid afterSid
              c.add_edge bodyEndSid joinSid
        | _, _ => .ok c) cfg

/-- Loop-edge pass for `while`/`for` (`cfg.py` lines 202-213): header gets the
loop-exit edge to `after_body`, the body end gets a back-edge to the header,
and the body-end fallthrough into `after_body` is removed.  A `while` that is
a recorded do-while tail is skipped. -/
def loopPass (ordered : List Statement) (control_info : List (Nat × ControlInfo))
    (do_tail_set : List Nat) (cfg : CFG) : Except String CFG :=
  ordered.enum.foldlM (fun c p =>
    if p.2.kind ∉ ["while", "for"] ∨ p.1 ∈ do_tail_set then .ok c
    else
      match dictGet? control_info p.1 with
      | none => .ok c
      | some info =>
        match info.body_start, info.body_end with
        | some _, some bodyEnd => do
          let bodyEndSid ← sidAtE ordered bodyEnd
          let c ←
            match info.after_body with
            | some a => do
                let afterSid ← sidAtE ordered a
                c.add_edge p.2.sid afterSid
            | none => .ok c
          let c ← c.add_edge bodyEndSid p.2.sid
          match info.after_body with
          | some a => do
              let afterSid ← sidAtE ordered a
              c.remove_edge bodyEndSid afterSid
          | none => .ok c
        | _, _ => .ok c) cfg

/-- Switch pass (`cfg.py` lines 215-226): the `switch` header gets an edge to
`after_body` and to every `case`/`default` statement in its body range. -/
def switchPass (ordered : List Statement) (control_info : List (Nat × ControlInfo))
    (cfg : CFG) : Except String CFG :=
  ordered.enum.foldlM (fun c p =>
    if p.2.kind ≠ "switch" then .ok c
    else
      match dictGet? control_info p.1 with
      | none => .ok c
      | some info =>
        match info.body_start, info.body_end with
        | some bodyStart, some bodyEnd => do
          let c ←
            match info.after_body with
            | some a => do
                let afterSid ← sidAtE ordered a
                c.add_edge p.2.sid afterSid
            | none => .ok c
          (List.range' bodyStart (bodyEnd + 1 - bodyStart)).foldlM (fun c2 case_idx =>
            if kindAt ordered case_idx ∈ ["case", "default"] then do
              let caseSid ← sidAtE ordered case_idx
              c2.add_edge p.2.sid caseSid
            else .ok c2) c
        | _, _ => .ok c) cfg

/-- Do-while back-edge pass (`cfg.py` lines 228-233): tail condition node back
to the body start. -/
def doTailPass (ordered : List Statement) (control_info : List (Nat × ControlInfo))
    (do_tail_map : List (Nat × Nat)) (cfg : CFG) : Except String CFG :=
  do_tail_map.foldlM (fun c p =>
    match dictGet? control_info p.1 with
    | none => .ok c
    | some info =>
      match info.body_start with
      | none => .ok c
      | some bodyStart => do
        let tailSid ← sidAtE ordered p.2
        let startSid ← sidAtE ordered bodyStart
        c.add_edge tailSid startSid) cfg

/-- `label_map` construction (`cfg.py` lines 236-238): label name to statement
id, for `label`-kind statements with a truthy (non-empty) label. -/
def buildLabelMap (ordered : List Statement) : List (String × Nat) :=
  ordered.foldl (fun m s =>
    match s.label with
    | some lbl => if s.kind == "label" ∧ lbl ≠ "" then dictInsert m lbl s.sid else m
    | none => m) []

/-- A default `ControlInfo` used where the Python source indexes
`control_info[...]` on a key that is always present (the stack only ever
holds `control_info` keys). -/
def emptyControlInfo : ControlInfo := ⟨"", none, none, none⟩

/-- `break` target resolution (`cfg.py` lines 247-261): scan the context stack
from the innermost context; a `do` context resolves through the do-while tail
when one is recorded. -/
def breakTarget (ordered : List Statement) (control_info : List (Nat × ControlInfo))
    (do_tail_map : List (Nat × Nat)) : List Nat → Option Nat
  | [] => none
  | ctx :: rest =>
    if kindAt ordered ctx ∈ ["while", "for", "do", "switch"] then
      if kindAt ordered ctx == "do" then
        match dictGet? do_tail_map ctx with
        | some tail_idx =>
          if tail_idx + 1 < ordered.length then some (tail_idx + 1) else none
        | none => ((dictGet? control_info ctx).getD emptyControlInfo).after_body
      else ((dictGet? control_info ctx).getD emptyControlInfo).after_body
    else breakTarget ordered control_info do_tail_map rest

/-- `continue` target resolution (`cfg.py` lines 265-270): innermost enclosing
loop context; a `do` loop resolves to its recorded tail. -/
def continueTarget (ordered : List Statement) (do_tail_map : List (Nat × Nat)) :
    List Nat → Option Nat
  | [] => none
  | ctx :: rest =>
    if kindAt ordered ctx ∈ ["while", "for", "do"] then
      some ((dictGet? do_tail_map ctx).getD ctx)
    else continueTarget ordered do_tail_map rest

/-- Context-stack popping (`cfg.py` lines 290-295): pop while the top
context's body range closes at the current index. -/
def popContexts (control_info : List (Nat × ControlInfo)) (idx : Nat) :
    List Nat → List Nat
  | [] => []
  | top :: rest =>
    if ((dictGet? control_info top).getD emptyControlInfo).body_end == some idx then
      popContexts control_info idx rest
    else top :: rest

/-- `break` handling (`cfg.py` lines 247-263): resolve the target through the
context stack and add the edge when one is found. -/
def breakEdges (ordered : List Statement) (control_info : List (Nat × ControlInfo))
    (do_tail_map : List (Nat × Nat)) (stack : List Nat) (stmt : Statement)
    (cfg : CFG) : Except String CFG :=
  if stmt.kind == "break" then
    match breakTarget ordered control_info do_tail_map stack with
    | some target_idx => do
        let tSid ← sidAtE ordered target_idx
        cfg.add_edge stmt.sid tSid
    | none => .ok cfg
  else .ok cfg

/-- `continue` handling (`cfg.py` lines 265-272). -/
def continueEdges (ordered : List Statement) (do_tail_map : List (Nat × Nat))
    (stack : List Nat) (stmt : Statement) (cfg : CFG) : Except String CFG :=
  if stmt.kind == "continue" then
    match continueTarget ordered do_tail_map stack with
    | some target_idx => do
        let tSid ← sidAtE ordered target_idx
        cfg.add_edge stmt.sid tSid
    | none => .ok cfg
  else .ok cfg

/-- `goto`/`if_goto` handling (`cfg.py` lines 274-282): the two source blocks
are identical except for the kind tag, which is passed as `kindName`. -/
def gotoEdges (label_map : List (String × Nat)) (kindName : String)
    (stmt : Statement) (cfg : CFG) : Except String CFG :=
  if stmt.kind == kindName then
    match stmt.target with
    | some tgt =>
      if tgt ≠ "" then
        match dictGet? label_map tgt with
        | some target_sid => cfg.add_edge stmt.sid target_sid
        | none => .ok cfg
      else .ok cfg
    | none => .ok cfg
  else .ok cfg

/-- `switch_goto` handling (`cfg.py` lines 284-288). -/
def switchGotoEdges (label_map : List (String × Nat)) (stmt : Statement)
    (cfg : CFG) : Except String CFG :=
  if stmt.kind == "switch_goto" ∧ stmt.targets ≠ [] then
    stmt.targets.foldlM (fun c tgt =>
      match dictGet? label_map tgt with
      | some target_sid => c.add_edge stmt.sid target_sid
      | none => .ok c) cfg
  else .ok cfg

/-- One iteration of the break/continue/goto loop (`cfg.py` lines 243-295).
The context stack holds the innermost context first (Python appends and scans
`reversed(context_stack)`). -/
def jumpStep (ordered : List Statement) (control_info : List (Nat × ControlInfo))
    (do_tail_map : List (Nat × Nat)) (label_map : List (String × Nat))
    (st : CFG × List Nat) (p : Nat × Statement) : Except String (CFG × List Nat) := do
  let idx := p.1
  let stmt := p.2
  let stack :=
    if stmt.kind ∈ ["while", "for", "do", "switch"] ∧ dictContains control_info idx then
      idx :: st.2
    else st.2
  let cfg := st.1
  let cfg ← breakEdges ordered control_info do_tail_map stack stmt cfg
  let cfg ← continueEdges ordered do_tail_map stack stmt cfg
  let cfg ← gotoEdges label_map "goto" stmt cfg
  let cfg ← gotoEdges label_map "if_goto" stmt cfg
  let cfg ← switchGotoEdges label_map stmt cfg
  .ok (cfg, popContexts control_info idx stack)

/-- The node dict `build_cfg` starts from: one edge-free node per statement
(`cfg.py` line 93). -/
def initialNodes (statements : List Statement) : List (Nat × CFGNode) :=
  statements.foldl (fun m s => dictInsert m s.sid ⟨s, [], []⟩) []

/-- `build_cfg` from `cfg.py`: build a control-flow graph using lightweight
structured heuristics.  Returns `Except` because `CFG.add_edge` raises
`KeyError` on unknown endpoints (it never fires for `build_cfg`'s own calls,
see `build_cfg_total`). -/
def build_cfg (statements : List Statement) : Except String CFG :=
  let nodes := initialNodes statements
  if nodes.isEmpty then .ok ⟨[], none, none⟩
  else do
    let ordered := statements
    let entrySid ← sidAtE ordered 0
    let exitSid ← sidAtE ordered (ordered.length - 1)
    let cfg : CFG := ⟨nodes, some entrySid, some exitSid⟩
    let cfg ← sequentialPass ordered cfg
    let block_pairs := buildBlockPairs ordered
    let block_owner := buildBlockOwner ordered block_pairs
    let control_info := buildControlInfo ordered block_pairs
    let dt := buildDoTail ordered block_pairs block_owner control_info
    let do_tail_map := dt.1
    let do_tail_set := dt.2
    let cfg ← branchPass ordered control_info cfg
    let cfg ← elseJoinPass ["if", "else_if"] ordered control_info cfg
    let cfg ← elseJoinPass ["else_if", "else"] ordered control_info cfg
    let cfg ← loopPass ordered control_info do_tail_set cfg
    let cfg ← switchPass ordered control_info cfg
    let cfg ← doTailPass ordered control_info do_tail_map cfg
    let label_map := buildLabelMap ordered
    let res ← ordered.enum.foldlM (jumpStep ordered control_info do_tail_map label_map)
      (cfg, [])
    .ok res.1

/-- `build_linear_cfg` from `cfg.py`: delegates to `build_cfg`. -/
def build_linear_cfg (statements : List Statement) : Except String CFG :=
  build_cfg statements

/-! ### Analysis layer (`src/analysis/*.py`)

All four entry points in the source are stubs whose bodies are a single
`raise NotImplementedError(...)`; they are modelled as functions into
`Except AnalysisError _` that return the corresponding error. -/

/-- Python `NotImplementedError` carrying its message. -/
inductive AnalysisError where
  | notImplemented (msg : String)
deriving DecidableEq, Repr

/-- `DataFlowResult` from `src/analysis/solver.py` (node ids are the
`Hashable` keys; here statement ids). -/
structure DataFlowResult where
  in_sets : List (Nat × List String)
  out_sets : List (Nat × List String)
deriving DecidableEq, Repr

/-- `solve_worklist` from `src/analysis/solver.py`: a stub that raises
`NotImplementedError` on every input. -/
def solve_worklist (nodes : List Nat) (predecessors successors : Nat → List Nat)
    (direction : String) (transfer : Nat → List String → List String) :
    Except AnalysisError DataFlowResult :=
  .error (.notImplemented "Worklist solver not implemented yet.")

/-- `compute_reaching_definitions` from
`src/analysis/reaching_definitions.py`: a stub that raises
`NotImplementedError` on every input. -/
def compute_reaching_definitions (cfg : CFG) : Except AnalysisError DataFlowResult :=
  .error (.notImplemented "Reaching definitions analysis not implemented yet.")

/-- `compute_live_variables` from `src/analysis/live_variables.py`: a stub
that raises `NotImplementedError` on every input. -/
def compute_live_variables (cfg : CFG) : Except AnalysisError DataFlowResult :=
  .error (.notImplemented "Live variable analysis not implemented yet.")

/-- `PointerAnalysisResult` from `src/analysis/pointer_analysis.py`. -/
structure PointerAnalysisResult where
  points_to : List (String × List String)
  alias_sets : List (String × List String)
deriving DecidableEq, Repr

/-- `compute_pointer_analysis` from `src/analysis/pointer_analysis.py`: a
stub that raises `NotImplementedError` on every input. -/
def compute_pointer_analysis (program : Program) : Except AnalysisError PointerAnalysisResult :=
  .error (.notImplemented "Pointer analysis not implemented yet.")

/-! ### Derived queries used by the theorems -/

/-- `b ∈ nodes[a].successors`: the CFG has an edge from statement id `a` to
statement id `b`. -/
def CFG.hasEdge (cfg : CFG) (a b : Nat) : Bool :=
  match dictGet? cfg.nodes a with
  | some n => n.successors.contains b
  | none => false

/-- Edge query through `build_cfg`: `false` when the build fails. -/
def edgeCheck (statements : List Statement) (a b : Nat) : Bool :=
  match build_cfg statements with
  | .ok cfg => cfg.hasEdge a b
  | .error _ => false

/-- A plain statement of the given kind, with no metadata. -/
def mkStmt (sid : Nat) (kind : String) : Statement :=
  { sid := sid, text := "", kind := kind }

/-- A synthetic `block_start`/`block_end` marker statement. -/
def mkMarker (sid : Nat) (kind : String) : Statement :=
  { sid := sid, text := "", kind := kind, synthetic := true }

/-- `sid` of `ordered[i]`, with default `0` out of range; used only to state
theorems about in-range positions. -/
def sidAt (ordered : List Statement) (i : Nat) : Nat :=
  ((ordered.get? i).map (·.sid)).getD 0

/-- Balancedness of `block_start`/`block_end` markers in the sense of the
spec ("some `block_start` has no matching `block_end` or vice versa"):
a Dyck-style depth count that fails on a `block_end` at depth zero and on a
positive final depth. -/
def markerDepth : List Statement → Nat → Option Nat
  | [], depth => some depth
  | stmt :: rest, depth =>
    if stmt.kind == "block_start" then markerDepth rest (depth + 1)
    else if stmt.kind == "block_end" then
      match depth with
      | 0 => none
      | d + 1 => markerDepth rest d
    else markerDepth rest depth

/-- The statement list has every `block_start` matched by a `block_end` and
vice versa. -/
def markersBalanced (statements : List Statement) : Bool :=
  markerDepth statements 0 == some 0

/-- A deferred `add_edge`/`remove_edge` call, used to state the claim that
the edge invariants survive any sequence of such calls. -/
inductive EdgeOp where
  | add (source target : Nat)
  | remove (source target : Nat)
deriving DecidableEq, Repr

/-- Run a sequence of `add_edge`/`remove_edge` calls, propagating the
`KeyError` that `add_edge` can raise. -/
def applyEdgeOps : CFG → List EdgeOp → Except String CFG
  | cfg, [] => .ok cfg
  | cfg, .add s t :: rest => do applyEdgeOps (← cfg.add_edge s t) rest
  | cfg, .remove s t :: rest => do applyEdgeOps (← cfg.remove_edge s t) rest

/-- Every successor list and predecessor list in the CFG is duplicate-free. -/
def NodupEdges (cfg : CFG) : Prop :=
  ∀ k n, dictGet? cfg.nodes k = some n → n.successors.Nodup ∧ n.predecessors.Nodup

/-- Edge symmetry: `b ∈ a.successors ⟺ a ∈ b.predecessors`. -/
def EdgeSymm (cfg : CFG) : Prop :=
  ∀ a b, (∃ na, dictGet? cfg.nodes a = some na ∧ b ∈ na.successors) ↔
    (∃ nb, dictGet? cfg.nodes b = some nb ∧ a ∈ nb.predecessors)

/-- The conjunction of the two edge-set invariants of the claim. -/
def EdgeInvariant (cfg : CFG) : Prop :=
  NodupEdges cfg ∧ EdgeSymm cfg

/-- Every index recorded in a `ControlInfo` lies below `n` (the statement
count); holds for every record `build_cfg` constructs, and is what makes its
internal `ordered[...]` accesses safe. -/
def ControlInfoBounded (n : Nat) (ci : ControlInfo) : Prop :=
  (∀ s, ci.body_start = some s → s < n) ∧
  (∀ e, ci.body_end = some e → e < n) ∧
  (∀ a, ci.after_body = some a → a < n)

/-- The CFG's node dict contains an entry for the id of every statement of
the program; `build_cfg` establishes this with its initial node map and
every edge operation preserves it, which is why `build_cfg` itself never
trips the `add_edge` endpoint check. -/
def ContainsAll (stmts : List Statement) (cfg : CFG) : Prop :=
  ∀ s ∈ stmts, dictContains cfg.nodes s.sid = true

/-! ### Concrete programs used by the claims -/

/-- `if (c1) {A} else if (c2) {B} else {C}` followed by `D`, as the flat
marker-delimited statement stream the parser produces; statement ids equal
positions.  `A`-end/`B`-end/`C`-end are the closing `block_end` markers
(ids 3, 7, 11), the `else_if`/`else` headers are ids 4 and 8, `D` is id 12. -/
def progIf : List Statement :=
  [mkStmt 0 "if", mkMarker 1 "block_start", mkStmt 2 "assign", mkMarker 3 "block_end",
   mkStmt 4 "else_if", mkMarker 5 "block_start", mkStmt 6 "assign", mkMarker 7 "block_end",
   mkStmt 8 "else", mkMarker 9 "block_start", mkStmt 10 "assign", mkMarker 11 "block_end",
   mkStmt 12 "assign"]

/-- `while (c) { S }` followed by `D`: header id 0, body `{S}` spanning ids
1-4 (`block_start`, two assignments, `block_end`), `D` id 5. -/
def progWhile : List Statement :=
  [mkStmt 0 "while", mkMarker 1 "block_start", mkStmt 2 "assign", mkStmt 3 "assign",
   mkMarker 4 "block_end", mkStmt 5 "assign"]

/-- `do { S } while (c);` followed by `D`, with a `continue` (id 3) and a
`break` (id 4) inside `S`; the `do` header is id 0, the body starts at the
`block_start` id 1, the trailing `while` tail node is id 6, `D` is id 7. -/
def progDo : List Statement :=
  [mkStmt 0 "do", mkMarker 1 "block_start", mkStmt 2 "assign", mkStmt 3 "continue",
   mkStmt 4 "break", mkMarker 5 "block_end", mkStmt 6 "while", mkStmt 7 "assign"]

/-- `x = 1; y = x; x = 2;` with ids 1, 2, 3 (the spec's straight-line
reaching-definitions example). -/
def progStraight : List Statement :=
  [{ sid := 1, text := "x = 1", kind := "assign", defs := ["x"] },
   { sid := 2, text := "y = x", kind := "assign", defs := ["y"], uses := ["x"] },
   { sid := 3, text := "x = 2", kind := "assign", defs := ["x"] }]

/-- A single unmatched `block_start`: the smallest unbalanced marker stream. -/
def progUnbalanced : List Statement :=
  [mkMarker 0 "block_start"]

/-! ## Helper lemmas about the dict model and edge mutation -/

theorem dictGet?_nil {κ α : Type} [BEq κ] (k : κ) :
    dictGet? ([] : List (κ × α)) k = none := rfl

theorem dictGet?_cons {κ α : Type} [BEq κ] (p : κ × α) (m : List (κ × α)) (k : κ) :
    dictGet? (p :: m) k = if p.1 == k then some p.2 else dictGet? m k := by
  by_cases h : p.1 == k <;> simp [dictGet?, List.find?, h]

theorem dictGet?_dictModify {κ α : Type} [BEq κ] [LawfulBEq κ]
    (m : List (κ × α)) (k k' : κ) (f : α → α) :
    dictGet? (dictModify m k f) k' =
      if k' == k then (dictGet? m k').map f else dictGet? m k' := by
  induction m with
  | nil =>
    by_cases h : k' = k <;> simp [dictGet?, dictModify, h]
  | cons p rest ih =>
    simp only [dictModify, List.map_cons]
    by_cases hk : p.1 = k
    · by_cases he : k' = k
      · subst he
        simp [dictGet?_cons, hk, ih]
      · have hne : p.1 ≠ k' := fun hc => he (by rw [← hc, hk])
        have hkk : k ≠ k' := fun hc => he hc.symm
        simp only [dictModify] at ih
        simp [dictGet?_cons, hk, hne, ih, he, hkk]
    · by_cases hp : p.1 = k'
      · have he : k' ≠ k := fun hc => hk (by rw [hp, hc])
        simp [dictGet?_cons, hk, hp, he]
      · simp only [dictModify] at ih
        simp [dictGet?_cons, hk, hp, ih]

theorem dictContains_iff {κ α : Type} [BEq κ] (m : List (κ × α)) (k : κ) :
    dictContains m k = true ↔ ∃ v, dictGet? m k = some v := by
  induction m with
  | nil => simp [dictContains, dictGet?]
  | cons p rest ih =>
    by_cases h : p.1 == k <;> simp [dictContains, dictGet?_cons, h, List.any_cons] <;>
      simpa [dictContains] using ih

theorem addPredecessor_successors (s : Nat) (n : CFGNode) :
    (addPredecessor s n).successors = n.successors := by
  unfold addPredecessor; split <;> rfl

theorem removePredecessor_successors (s : Nat) (n : CFGNode) :
    (removePredecessor s n).successors = n.successors := rfl

theorem addSuccessor_predecessors (t : Nat) (n : CFGNode) :
    (addSuccessor t n).predecessors = n.predecessors := by
  unfold addSuccessor; split <;> rfl

theorem removeSuccessor_predecessors (t : Nat) (n : CFGNode) :
    (removeSuccessor t n).predecessors = n.predecessors := rfl

theorem mem_addSuccessor (y t : Nat) (n : CFGNode) :
    y ∈ (addSuccessor t n).successors ↔ (y ∈ n.successors ∨ y = t) := by
  unfold addSuccessor
  split
  · next h =>
    constructor
    · exact fun hy => Or.inl hy
    · rintro (hy | rfl)
      · exact hy
      · exact h
  · simp

theorem mem_addPredecessor (y s : Nat) (n : CFGNode) :
    y ∈ (addPredecessor s n).predecessors ↔ (y ∈ n.predecessors ∨ y = s) := by
  unfold addPredecessor
  split
  · next h =>
    constructor
    · exact fun hy => Or.inl hy
    · rintro (hy | rfl)
      · exact hy
      · exact h
  · simp

theorem except_bind_ok {ε α β : Type} {e : Except ε α} {g : α → Except ε β} {r : β}
    (h : (e >>= g) = .ok r) : ∃ a, e = .ok a ∧ g a = .ok r := by
  cases e with
  | ok a => exact ⟨a, rfl, h⟩
  | error msg => simp [Bind.bind, Except.bind] at h

theorem add_edge_ok {cfg : CFG} {s t : Nat} {r : CFG}
    (h : cfg.add_edge s t = .ok r) :
    dictContains cfg.nodes s = true ∧ dictContains cfg.nodes t = true ∧
    r = ⟨dictModify (dictModify cfg.nodes s (addSuccessor t)) t (addPredecessor s),
         cfg.entry, cfg.exit⟩ := by
  by_cases hc : dictContains cfg.nodes s = true ∧ dictContains cfg.nodes t = true
  · refine ⟨hc.1, hc.2, ?_⟩
    simp only [CFG.add_edge, if_neg (not_not_intro hc)] at h
    cases cfg
    exact (Except.ok.inj h).symm
  · simp only [CFG.add_edge, if_pos hc] at h
    exact Except.noConfusion h

theorem remove_edge_ok {cfg : CFG} {s t : Nat} {r : CFG}
    (h : cfg.remove_edge s t = .ok r) :
    r = cfg ∨
    (dictContains cfg.nodes s = true ∧ dictContains cfg.nodes t = true ∧
     r = ⟨dictModify (dictModify cfg.nodes s (removeSuccessor t)) t (removePredecessor s),
          cfg.entry, cfg.exit⟩) := by
  by_cases hc : dictContains cfg.nodes s = true ∧ dictContains cfg.nodes t = true
  · refine Or.inr ⟨hc.1, hc.2, ?_⟩
    simp only [CFG.remove_edge, if_neg (not_not_intro hc)] at h
    cases cfg
    exact (Except.ok.inj h).symm
  · simp only [CFG.remove_edge, if_pos hc] at h
    exact Or.inl (Except.ok.inj h).symm

theorem hasEdge_iff (cfg : CFG) (a b : Nat) :
    cfg.hasEdge a b = true ↔ ∃ n, dictGet? cfg.nodes a = some n ∧ b ∈ n.successors := by
  unfold CFG.hasEdge
  cases hg : dictGet? cfg.nodes a with
  | none => simp
  | some n => simp [List.contains, List.elem_iff]

theorem dictContains_false {κ α : Type} [BEq κ] {m : List (κ × α)} {k : κ}
    (h : dictContains m k = false) : dictGet? m k = none := by
  cases hg : dictGet? m k with
  | none => rfl
  | some v => exact absurd ((dictContains_iff m k).mpr ⟨v, hg⟩) (by simp [h])

theorem hasEdge_add_edge {cfg : CFG} {s t : Nat} {r : CFG}
    (h : cfg.add_edge s t = .ok r) (x y : Nat) :
    r.hasEdge x y = true ↔ (cfg.hasEdge x y = true ∨ (x = s ∧ y = t)) := by
  obtain ⟨hs, _, hr⟩ := add_edge_ok h
  obtain ⟨vs, hvs⟩ := (dictContains_iff _ _).mp hs
  subst hr
  simp only [hasEdge_iff, dictGet?_dictModify]
  by_cases hxt : x = t
  · subst hxt
    by_cases hxs : x = s
    · subst hxs
      simp [hvs, mem_addSuccessor, addPredecessor_successors, Option.map_eq_some']
    · simp [hxs, mem_addSuccessor, addPredecessor_successors, Option.map_eq_some']
  · by_cases hxs : x = s
    · subst hxs
      simp [hxt, hvs, mem_addSuccessor, addPredecessor_successors, Option.map_eq_some']
    · simp [hxt, hxs]

theorem foldlM_sequentialStep_hasEdge :
    ∀ (pairs : List (Statement × Statement)) (cfg cfg' : CFG),
      pairs.foldlM sequentialStep cfg = .ok cfg' →
      ∀ x y, cfg'.hasEdge x y = true ↔
        (cfg.hasEdge x y = true ∨
          ∃ p, p ∈ pairs ∧ p.1.kind ∉ jumpKinds ∧ p.1.sid = x ∧ p.2.sid = y) := by
  intro pairs
  induction pairs with
  | nil =>
    intro cfg cfg' h x y
    simp only [List.foldlM_nil] at h
    cases Except.ok.inj h
    simp
  | cons p rest ih =>
    intro cfg cfg' h x y
    simp only [List.foldlM_cons] at h
    obtain ⟨c1, hc1, hrest⟩ := except_bind_ok h
    unfold sequentialStep at hc1
    by_cases hk : p.1.kind ∈ jumpKinds
    · rw [if_pos hk] at hc1
      cases Except.ok.inj hc1
      rw [ih _ _ hrest]
      constructor
      · rintro (hc | ⟨q, hq, hnj, hx, hy⟩)
        · exact Or.inl hc
        · exact Or.inr ⟨q, List.mem_cons_of_mem _ hq, hnj, hx, hy⟩
      · rintro (hc | ⟨q, hq, hnj, hx, hy⟩)
        · exact Or.inl hc
        · rcases List.mem_cons.mp hq with rfl | hq'
          · exact absurd hk hnj
          · exact Or.inr ⟨q, hq', hnj, hx, hy⟩
    · rw [if_neg hk] at hc1
      rw [ih _ _ hrest, hasEdge_add_edge hc1 x y]
      constructor
      · rintro ((hc | ⟨rfl, rfl⟩) | ⟨q, hq, hnj, hx, hy⟩)
        · exact Or.inl hc
        · exact Or.inr ⟨p, List.mem_cons_self _ _, hk, rfl, rfl⟩
        · exact Or.inr ⟨q, List.mem_cons_of_mem _ hq, hnj, hx, hy⟩
      · rintro (hc | ⟨q, hq, hnj, hx, hy⟩)
        · exact Or.inl (Or.inl hc)
        · rcases List.mem_cons.mp hq with rfl | hq'
          · exact Or.inl (Or.inr ⟨hx.symm, hy.symm⟩)
          · exact Or.inr ⟨q, hq', hnj, hx, hy⟩

theorem dictGet?_append_single {κ α : Type} [BEq κ] [LawfulBEq κ]
    (m : List (κ × α)) (k k' : κ) (v : α) (hnone : dictGet? m k = none) :
    dictGet? (m ++ [(k, v)]) k' = if k' == k then some v else dictGet? m k' := by
  induction m with
  | nil =>
    by_cases he : k' = k
    · simp [dictGet?_cons, he]
    · simp [dictGet?_cons, dictGet?, he, Ne.symm he]
  | cons p rest ih =>
    rw [dictGet?_cons] at hnone
    by_cases hp : p.1 == k
    · simp [hp] at hnone
    · have hrest : dictGet? rest k = none := by simpa [hp] using hnone
      simp only [List.cons_append, dictGet?_cons]
      by_cases hp' : p.1 == k'
      · have hne : k' ≠ k := by
          intro hc
          apply hp
          rw [beq_iff_eq] at hp' ⊢
          rw [hp', hc]
        simp [hp', hne]
      · rw [if_neg hp', if_neg hp', ih hrest]

theorem dictGet?_dictInsert {κ α : Type} [BEq κ] [LawfulBEq κ]
    (m : List (κ × α)) (k k' : κ) (v : α) :
    dictGet? (dictInsert m k v) k' = if k' == k then some v else dictGet? m k' := by
  have hfun : (fun (p : κ × α) => if p.1 == k then (k, v) else p) =
      (fun (p : κ × α) => if p.1 == k then (p.1, v) else p) := by
    funext p
    by_cases h : p.1 == k
    · simp only [if_pos h, beq_iff_eq.mp h]
    · simp only [if_neg h]
  unfold dictInsert
  by_cases hany : m.any (fun p => p.1 == k)
  · rw [if_pos hany, hfun]
    have := dictGet?_dictModify m k k' (fun _ => v)
    simp only [dictModify] at this
    rw [this]
    obtain ⟨w, hw⟩ := (dictContains_iff m k).mp hany
    by_cases he : k' = k <;> simp [he, hw]
  · rw [if_neg hany]
    have hfalse : dictContains m k = false := by
      unfold dictContains
      cases hX : m.any (fun p => p.1 == k)
      · rfl
      · exact absurd hX hany
    exact dictGet?_append_single m k k' v (dictContains_false hfalse)

theorem initialNodes_aux_successors :
    ∀ (stmts : List Statement) (m : List (Nat × CFGNode)),
      (∀ k n, dictGet? m k = some n → n.successors = []) →
      ∀ k n,
        dictGet? (stmts.foldl (fun acc s => dictInsert acc s.sid ⟨s, [], []⟩) m) k = some n →
        n.successors = [] := by
  intro stmts
  induction stmts with
  | nil => intro m hm; exact hm
  | cons s rest ih =>
    intro m hm
    refine ih _ ?_
    intro k n hk
    rw [dictGet?_dictInsert] at hk
    by_cases hks : k == s.sid
    · rw [if_pos hks] at hk
      cases Option.some.inj hk
      rfl
    · rw [if_neg hks] at hk
      exact hm k n hk

theorem initial_hasEdge (stmts : List Statement) (e x : Option Nat) (a b : Nat) :
    CFG.hasEdge ⟨initialNodes stmts, e, x⟩ a b = false := by
  cases h : CFG.hasEdge ⟨initialNodes stmts, e, x⟩ a b
  · rfl
  · obtain ⟨n, hn, hb⟩ := (hasEdge_iff _ a b).mp h
    have : n.successors = [] :=
      initialNodes_aux_successors stmts [] (by intro k n' h'; cases h') a n hn
    rw [this] at hb
    cases hb

theorem get?_zip_tail :
    ∀ (l : List Statement) (i : Nat) (a b : Statement),
      l.get? i = some a → l.get? (i + 1) = some b → (a, b) ∈ l.zip l.tail := by
  intro l
  induction l with
  | nil => intro i a b ha; cases ha
  | cons hd rest ih =>
    intro i a b ha hb
    cases i with
    | zero =>
      cases Option.some.inj ha
      cases rest with
      | nil => cases hb
      | cons y rest' =>
        cases Option.some.inj hb
        exact List.mem_cons_self _ _
    | succ j =>
      cases rest with
      | nil => cases hb
      | cons y rest' =>
        have := ih j a b ha hb
        exact List.mem_cons_of_mem _ (by simpa using this)

theorem mem_zip_tail :
    ∀ (l : List Statement) (p : Statement × Statement),
      p ∈ l.zip l.tail → ∃ i, l.get? i = some p.1 ∧ l.get? (i + 1) = some p.2 := by
  intro l
  induction l with
  | nil => intro p hp; cases hp
  | cons hd rest ih =>
    intro p hp
    cases rest with
    | nil => cases hp
    | cons y rest' =>
      rcases List.mem_cons.mp hp with rfl | hp'
      · exact ⟨0, rfl, rfl⟩
      · obtain ⟨i, h1, h2⟩ := ih p (by simpa using hp')
        exact ⟨i + 1, h1, h2⟩

theorem sid_index_inj {stmts : List Statement} (hnodup : (stmts.map Statement.sid).Nodup)
    {j j' : Nat} {a b : Statement} (ha : stmts.get? j = some a) (hb : stmts.get? j' = some b)
    (hsid : a.sid = b.sid) : j = j' := by
  have hja : (stmts.map Statement.sid)[j]? = some a.sid := by
    rw [List.getElem?_map, ← List.get?_eq_getElem?, ha]; rfl
  have hjb : (stmts.map Statement.sid)[j']? = some b.sid := by
    rw [List.getElem?_map, ← List.get?_eq_getElem?, hb]; rfl
  have hlen : j < (stmts.map Statement.sid).length := by
    rw [List.length_map]
    exact List.get?_eq_some.mp ha |>.choose
  exact List.getElem?_inj hlen hnodup (by rw [hja, hjb, hsid])

theorem hasPred_add_edge {cfg : CFG} {s t : Nat} {r : CFG}
    (h : cfg.add_edge s t = .ok r) (x y : Nat) :
    (∃ n, dictGet? r.nodes y = some n ∧ x ∈ n.predecessors) ↔
      ((∃ n, dictGet? cfg.nodes y = some n ∧ x ∈ n.predecessors) ∨ (x = s ∧ y = t)) := by
  obtain ⟨_, ht, hr⟩ := add_edge_ok h
  obtain ⟨vt, hvt⟩ := (dictContains_iff _ _).mp ht
  subst hr
  simp only [dictGet?_dictModify]
  by_cases hyt : y = t
  · subst hyt
    by_cases hys : y = s
    · subst hys
      simp [hvt, mem_addPredecessor, addSuccessor_predecessors, Option.map_eq_some']
    · simp [hys, hvt, mem_addPredecessor, addSuccessor_predecessors, Option.map_eq_some']
  · by_cases hys : y = s
    · subst hys
      simp [hyt, addSuccessor_predecessors, Option.map_eq_some']
    · simp [hyt, hys]

theorem nodup_addSuccessor {t : Nat} {n : CFGNode} (h : n.successors.Nodup) :
    (addSuccessor t n).successors.Nodup := by
  unfold addSuccessor
  split
  · exact h
  · next hmem => simp [List.nodup_append, h, hmem]

theorem nodup_addPredecessor {s : Nat} {n : CFGNode} (h : n.predecessors.Nodup) :
    (addPredecessor s n).predecessors.Nodup := by
  unfold addPredecessor
  split
  · exact h
  · next hmem => simp [List.nodup_append, h, hmem]

theorem lookup_add_edge {cfg : CFG} {s t : Nat} {r : CFG}
    (h : cfg.add_edge s t = .ok r) (k : Nat) :
    dictGet? r.nodes k =
      (if k = t
        then (if k = s then (dictGet? cfg.nodes k).map (addSuccessor t)
              else dictGet? cfg.nodes k).map (addPredecessor s)
        else (if k = s then (dictGet? cfg.nodes k).map (addSuccessor t)
              else dictGet? cfg.nodes k)) := by
  obtain ⟨_, _, hr⟩ := add_edge_ok h
  subst hr
  simp only [dictGet?_dictModify]
  by_cases hkt : k = t <;> by_cases hks : k = s <;> simp [hkt, hks]

theorem lookup_remove_edge_mod {cfg : CFG} {s t : Nat}
    (hs : dictContains cfg.nodes s = true) (ht : dictContains cfg.nodes t = true)
    {r : CFG} (h : cfg.remove_edge s t = .ok r) (k : Nat) :
    dictGet? r.nodes k =
      (if k = t
        then (if k = s then (dictGet? cfg.nodes k).map (removeSuccessor t)
              else dictGet? cfg.nodes k).map (removePredecessor s)
        else (if k = s then (dictGet? cfg.nodes k).map (removeSuccessor t)
              else dictGet? cfg.nodes k)) := by
  have hc : dictContains cfg.nodes s = true ∧ dictContains cfg.nodes t = true := ⟨hs, ht⟩
  simp only [CFG.remove_edge, if_neg (not_not_intro hc)] at h
  have hr : r = ⟨dictModify (dictModify cfg.nodes s (removeSuccessor t)) t (removePredecessor s),
      cfg.entry, cfg.exit⟩ := by
    cases cfg
    exact (Except.ok.inj h).symm
  subst hr
  simp only [dictGet?_dictModify]
  by_cases hkt : k = t <;> by_cases hks : k = s <;> simp [hkt, hks]

theorem nodupEdges_add_edge {cfg : CFG} {s t : Nat} {r : CFG}
    (hinv : NodupEdges cfg) (h : cfg.add_edge s t = .ok r) : NodupEdges r := by
  intro k n hk
  rw [lookup_add_edge h k] at hk
  split at hk
  · split at hk
    · obtain ⟨n1, hn1, rfl⟩ := Option.map_eq_some'.mp hk
      obtain ⟨n0, hn0, rfl⟩ := Option.map_eq_some'.mp hn1
      have h0 := hinv _ _ hn0
      constructor
      · rw [addPredecessor_successors]; exact nodup_addSuccessor h0.1
      · exact nodup_addPredecessor (by rw [addSuccessor_predecessors]; exact h0.2)
    · obtain ⟨n0, hn0, rfl⟩ := Option.map_eq_some'.mp hk
      have h0 := hinv _ _ hn0
      constructor
      · rw [addPredecessor_successors]; exact h0.1
      · exact nodup_addPredecessor h0.2
  · split at hk
    · obtain ⟨n0, hn0, rfl⟩ := Option.map_eq_some'.mp hk
      have h0 := hinv _ _ hn0
      constructor
      · exact nodup_addSuccessor h0.1
      · rw [addSuccessor_predecessors]; exact h0.2
    · exact hinv _ _ hk

theorem edgeSymm_add_edge {cfg : CFG} {s t : Nat} {r : CFG}
    (hsym : EdgeSymm cfg) (h : cfg.add_edge s t = .ok r) : EdgeSymm r := by
  intro a b
  have e1 := (hasEdge_iff r a b).symm.trans (hasEdge_add_edge h a b)
  have e2 := hasPred_add_edge h a b
  rw [e1, e2, hasEdge_iff, hsym a b]

theorem hasEdge_remove_edge {cfg : CFG} {s t : Nat} {r : CFG}
    (hinv : EdgeInvariant cfg) (h : cfg.remove_edge s t = .ok r) (x y : Nat) :
    r.hasEdge x y = true ↔ (cfg.hasEdge x y = true ∧ ¬(x = s ∧ y = t)) := by
  by_cases hc : dictContains cfg.nodes s = true ∧ dictContains cfg.nodes t = true
  · have hlook := lookup_remove_edge_mod hc.1 hc.2 h
    simp only [hasEdge_iff, hlook]
    cases hget : dictGet? cfg.nodes x with
    | none =>
      by_cases hxs : x = s <;> by_cases hxt : x = t <;> simp [hget, hxs, hxt]
    | some n0 =>
      have hnd := (hinv.1 _ _ hget).1
      by_cases hxs : x = s
      · by_cases hxt : x = t
        · have hst : s = t := hxs.symm.trans hxt
          simp [hget, hxs, hst, removePredecessor_successors, removeSuccessor,
            List.Nodup.mem_erase_iff hnd, Option.map_eq_some'] <;> tauto
        · have hstne : ¬ s = t := fun hc => hxt (hxs.trans hc)
          simp [hget, hxs, hstne, removeSuccessor,
            List.Nodup.mem_erase_iff hnd] <;> tauto
      · by_cases hxt : x = t
        · have htsne : ¬ t = s := fun hc => hxs (hxt.trans hc)
          simp [hget, hxs, hxt, htsne, removePredecessor_successors,
            Option.map_eq_some'] <;> tauto
        · simp [hget, hxs, hxt]
  · have hr : r = cfg := by
      simp only [CFG.remove_edge, if_pos hc] at h
      exact (Except.ok.inj h).symm
    subst hr
    constructor
    · intro hx
      refine ⟨hx, ?_⟩
      rintro ⟨rfl, rfl⟩
      obtain ⟨ns, hns, hmem⟩ := (hasEdge_iff _ _ _).mp hx
      obtain ⟨nt, hnt, _⟩ := (hinv.2 x y).mp ⟨ns, hns, hmem⟩
      exact hc ⟨(dictContains_iff _ _).mpr ⟨ns, hns⟩, (dictContains_iff _ _).mpr ⟨nt, hnt⟩⟩
    · exact fun hx => hx.1

theorem hasPred_remove_edge {cfg : CFG} {s t : Nat} {r : CFG}
    (hinv : EdgeInvariant cfg) (h : cfg.remove_edge s t = .ok r) (x y : Nat) :
    (∃ n, dictGet? r.nodes y = some n ∧ x ∈ n.predecessors) ↔
      ((∃ n, dictGet? cfg.nodes y = some n ∧ x ∈ n.predecessors) ∧ ¬(x = s ∧ y = t)) := by
  by_cases hc : dictContains cfg.nodes s = true ∧ dictContains cfg.nodes t = true
  · have hlook := lookup_remove_edge_mod hc.1 hc.2 h
    simp only [hlook]
    cases hget : dictGet? cfg.nodes y with
    | none =>
      by_cases hys : y = s <;> by_cases hyt : y = t <;> simp [hget, hys, hyt]
    | some n0 =>
      have hnd := (hinv.1 _ _ hget).2
      by_cases hyt : y = t
      · by_cases hys : y = s
        · have hts : t = s := hyt.symm.trans hys
          simp [hget, hyt, hts, removeSuccessor_predecessors, removePredecessor,
            List.Nodup.mem_erase_iff hnd, Option.map_eq_some'] <;> tauto
        · have htsne : ¬ t = s := fun hc => hys (hyt.trans hc)
          simp [hget, hyt, htsne, removePredecessor,
            List.Nodup.mem_erase_iff hnd, Option.map_eq_some'] <;> tauto
      · by_cases hys : y = s
        · have hstne : ¬ s = t := fun hc => hyt (hys.trans hc)
          simp [hget, hys, hyt, hstne, removeSuccessor_predecessors,
            Option.map_eq_some'] <;> tauto
        · simp [hget, hys, hyt]
  · have hr : r = cfg := by
      simp only [CFG.remove_edge, if_pos hc] at h
      exact (Except.ok.inj h).symm
    subst hr
    constructor
    · intro hx
      refine ⟨hx, ?_⟩
      rintro ⟨rfl, rfl⟩
      obtain ⟨nt, hnt, hmem⟩ := hx
      obtain ⟨ns, hns, _⟩ := (hinv.2 x y).mpr ⟨nt, hnt, hmem⟩
      exact hc ⟨(dictContains_iff _ _).mpr ⟨ns, hns⟩, (dictContains_iff _ _).mpr ⟨nt, hnt⟩⟩
    · exact fun hx => hx.1

theorem nodupEdges_remove_edge {cfg : CFG} {s t : Nat} {r : CFG}
    (hinv : NodupEdges cfg) (h : cfg.remove_edge s t = .ok r) : NodupEdges r := by
  rcases remove_edge_ok h with rfl | ⟨_, _, hr⟩
  · exact hinv
  · subst hr
    intro k n hk
    simp only [dictGet?_dictModify] at hk
    split at hk
    · obtain ⟨n1, hn1, rfl⟩ := Option.map_eq_some'.mp hk
      split at hn1
      · obtain ⟨n0, hn0, rfl⟩ := Option.map_eq_some'.mp hn1
        have h0 := hinv _ _ hn0
        exact ⟨by simpa [removePredecessor_successors, removeSuccessor] using h0.1.erase t,
          by simpa [removePredecessor, removeSuccessor_predecessors] using h0.2.erase s⟩
      · have h0 := hinv _ _ hn1
        exact ⟨by simpa [removePredecessor_successors] using h0.1,
          by simpa [removePredecessor] using h0.2.erase s⟩
    · split at hk
      · obtain ⟨n0, hn0, rfl⟩ := Option.map_eq_some'.mp hk
        have h0 := hinv _ _ hn0
        exact ⟨by simpa [removeSuccessor] using h0.1.erase t,
          by simpa [removeSuccessor_predecessors] using h0.2⟩
      · exact hinv _ _ hk

theorem edgeSymm_remove_edge {cfg : CFG} {s t : Nat} {r : CFG}
    (hinv : EdgeInvariant cfg) (h : cfg.remove_edge s t = .ok r) : EdgeSymm r := by
  intro a b
  have e1 := (hasEdge_iff r a b).symm.trans (hasEdge_remove_edge hinv h a b)
  have e2 := hasPred_remove_edge hinv h a b
  rw [e1, e2, hasEdge_iff, hinv.2 a b]

theorem edgeInvariant_add_edge {cfg : CFG} {s t : Nat} {r : CFG}
    (hinv : EdgeInvariant cfg) (h : cfg.add_edge s t = .ok r) : EdgeInvariant r :=
  ⟨nodupEdges_add_edge hinv.1 h, edgeSymm_add_edge hinv.2 h⟩

theorem edgeInvariant_remove_edge {cfg : CFG} {s t : Nat} {r : CFG}
    (hinv : EdgeInvariant cfg) (h : cfg.remove_edge s t = .ok r) : EdgeInvariant r :=
  ⟨nodupEdges_remove_edge hinv.1 h, edgeSymm_remove_edge hinv h⟩

theorem foldlM_preserve {σ α : Type} (P : σ → Prop) (step : σ → α → Except String σ)
    (hstep : ∀ c a c', P c → step c a = .ok c' → P c') :
    ∀ (l : List α) (c c' : σ), P c → l.foldlM step c = .ok c' → P c' := by
  intro l
  induction l with
  | nil =>
    intro c c' hc h
    simp only [List.foldlM_nil] at h
    cases Except.ok.inj h
    exact hc
  | cons a rest ih =>
    intro c c' hc h
    simp only [List.foldlM_cons] at h
    obtain ⟨c1, h1, h2⟩ := except_bind_ok h
    exact ih c1 c' (hstep c a c1 hc h1) h2

theorem edgeInvariant_sequentialPass {ordered : List Statement} {c c' : CFG}
    (hI : EdgeInvariant c) (h : sequentialPass ordered c = .ok c') : EdgeInvariant c' := by
  refine foldlM_preserve EdgeInvariant sequentialStep ?_ _ c c' hI h
  intro c1 p c2 h1 hstep
  unfold sequentialStep at hstep
  split at hstep
  · cases Except.ok.inj hstep; exact h1
  · exact edgeInvariant_add_edge h1 hstep

theorem edgeInvariant_branchPass {ordered : List Statement}
    {ci : List (Nat × ControlInfo)} {c c' : CFG}
    (hI : EdgeInvariant c) (h : branchPass ordered ci c = .ok c') : EdgeInvariant c' := by
  unfold branchPass at h
  refine foldlM_preserve EdgeInvariant _ ?_ _ c c' hI h
  intro c1 p c2 h1 hstep
  split at hstep
  · cases Except.ok.inj hstep; exact h1
  · split at hstep
    · cases Except.ok.inj hstep; exact h1
    · split at hstep
      · cases Except.ok.inj hstep; exact h1
      · obtain ⟨v, hv, h2⟩ := except_bind_ok hstep
        split at h2
        · exact edgeInvariant_add_edge h1 h2
        · exact edgeInvariant_add_edge h1 h2

theorem edgeInvariant_elseJoinPass {kinds : List String} {ordered : List Statement}
    {ci : List (Nat × ControlInfo)} {c c' : CFG}
    (hI : EdgeInvariant c) (h : elseJoinPass kinds ordered ci c = .ok c') : EdgeInvariant c' := by
  unfold elseJoinPass at h
  refine foldlM_preserve EdgeInvariant _ ?_ _ c c' hI h
  intro c1 p c2 h1 hstep
  split at hstep
  · cases Except.ok.inj hstep; exact h1
  · split at hstep
    · cases Except.ok.inj hstep; exact h1
    · split at hstep
      · split at hstep
        · cases Except.ok.inj hstep; exact h1
        · split at hstep
          · cases Except.ok.inj hstep; exact h1
          · obtain ⟨v1, _, h2⟩ := except_bind_ok hstep
            obtain ⟨v2, _, h3⟩ := except_bind_ok h2
            obtain ⟨v3, _, h4⟩ := except_bind_ok h3
            obtain ⟨c3, hc3, h5⟩ := except_bind_ok h4
            exact edgeInvariant_add_edge (edgeInvariant_remove_edge h1 hc3) h5
      · cases Except.ok.inj hstep; exact h1

theorem edgeInvariant_loopPass {ordered : List Statement}
    {ci : List (Nat × ControlInfo)} {dts : List Nat} {c c' : CFG}
    (hI : EdgeInvariant c) (h : loopPass ordered ci dts c = .ok c') : EdgeInvariant c' := by
  unfold loopPass at h
  refine foldlM_preserve EdgeInvariant _ ?_ _ c c' hI h
  intro c1 p c2 h1 hstep
  dsimp only at hstep
  split at hstep
  · cases Except.ok.inj hstep; exact h1
  · split at hstep
    · cases Except.ok.inj hstep; exact h1
    · split at hstep
      · obtain ⟨v1, _, h2⟩ := except_bind_ok hstep
        split at h2
        · obtain ⟨v2, _, h3⟩ := except_bind_ok h2
          obtain ⟨c3, hc3, h4⟩ := except_bind_ok h3
          obtain ⟨c4, hc4, h5⟩ := except_bind_ok h4
          have hI4 : EdgeInvariant c4 :=
            edgeInvariant_add_edge (edgeInvariant_add_edge h1 hc3) hc4
          split at h5
          · obtain ⟨v3, _, h6⟩ := except_bind_ok h5
            exact edgeInvariant_remove_edge hI4 h6
          · cases Except.ok.inj h5; exact hI4
        · obtain ⟨c3, hc3, h4⟩ := except_bind_ok h2
          obtain ⟨c4, hc4, h5⟩ := except_bind_ok h4
          cases Except.ok.inj hc3
          have hI4 : EdgeInvariant c4 := edgeInvariant_add_edge h1 hc4
          split at h5
          · obtain ⟨v3, _, h6⟩ := except_bind_ok h5
            exact edgeInvariant_remove_edge hI4 h6
          · cases Except.ok.inj h5; exact hI4
      · cases Except.ok.inj hstep; exact h1

theorem edgeInvariant_switchPass {ordered : List Statement}
    {ci : List (Nat × ControlInfo)} {c c' : CFG}
    (hI : EdgeInvariant c) (h : switchPass ordered ci c = .ok c') : EdgeInvariant c' := by
  unfold switchPass at h
  refine foldlM_preserve EdgeInvariant _ ?_ _ c c' hI h
  intro c1 p c2 h1 hstep
  dsimp only at hstep
  split at hstep
  · cases Except.ok.inj hstep; exact h1
  · split at hstep
    · cases Except.ok.inj hstep; exact h1
    · split at hstep
      · have hinner : ∀ (c4 : CFG) (cidx : Nat) (c5 : CFG), EdgeInvariant c4 →
            (if kindAt ordered cidx ∈ ["case", "default"] then do
              let caseSid ← sidAtE ordered cidx
              c4.add_edge p.2.sid caseSid
            else Except.ok c4) = .ok c5 → EdgeInvariant c5 := by
          intro c4 cidx c5 h4 hstep2
          split at hstep2
          · obtain ⟨v2, _, h5⟩ := except_bind_ok hstep2
            exact edgeInvariant_add_edge h4 h5
          · cases Except.ok.inj hstep2; exact h4
        split at hstep
        · obtain ⟨v1, _, h2⟩ := except_bind_ok hstep
          obtain ⟨c3, hc3, h3⟩ := except_bind_ok h2
          exact foldlM_preserve EdgeInvariant _ hinner _ c3 c2
            (edgeInvariant_add_edge h1 hc3) h3
        · obtain ⟨c3, hc3, h3⟩ := except_bind_ok hstep
          cases Except.ok.inj hc3
          exact foldlM_preserve EdgeInvariant _ hinner _ _ c2 h1 h3
      · cases Except.ok.inj hstep; exact h1

theorem edgeInvariant_doTailPass {ordered : List Statement}
    {ci : List (Nat × ControlInfo)} {dtm : List (Nat × Nat)} {c c' : CFG}
    (hI : EdgeInvariant c) (h : doTailPass ordered ci dtm c = .ok c') : EdgeInvariant c' := by
  unfold doTailPass at h
  refine foldlM_preserve EdgeInvariant _ ?_ _ c c' hI h
  intro c1 p c2 h1 hstep
  split at hstep
  · cases Except.ok.inj hstep; exact h1
  · split at hstep
    · cases Except.ok.inj hstep; exact h1
    · obtain ⟨v1, _, h2⟩ := except_bind_ok hstep
      obtain ⟨v2, _, h3⟩ := except_bind_ok h2
      exact edgeInvariant_add_edge h1 h3

/-! ## Theorems settling the claims -/

theorem edgeInvariant_jumpStep {ordered : List Statement} {ci : List (Nat × ControlInfo)}
    {dtm : List (Nat × Nat)} {lm : List (String × Nat)}
    (st : CFG × List Nat) (p : Nat × Statement) (st' : CFG × List Nat)
    (h1 : EdgeInvariant st.1) (hstep : jumpStep ordered ci dtm lm st p = .ok st') :
    EdgeInvariant st'.1 := by
  have hbreak : ∀ (stack : List Nat) (stmt : Statement) (c c' : CFG), EdgeInvariant c →
      breakEdges ordered ci dtm stack stmt c = .ok c' → EdgeInvariant c' := by
    intro stack stmt c c' hA hB
    unfold breakEdges at hB
    split at hB
    · split at hB
      · obtain ⟨v, _, hadd⟩ := except_bind_ok hB
        exact edgeInvariant_add_edge hA hadd
      · cases Except.ok.inj hB; exact hA
    · cases Except.ok.inj hB; exact hA
  have hcont : ∀ (stack : List Nat) (stmt : Statement) (c c' : CFG), EdgeInvariant c →
      continueEdges ordered dtm stack stmt c = .ok c' → EdgeInvariant c' := by
    intro stack stmt c c' hA hB
    unfold continueEdges at hB
    split at hB
    · split at hB
      · obtain ⟨v, _, hadd⟩ := except_bind_ok hB
        exact edgeInvariant_add_edge hA hadd
      · cases Except.ok.inj hB; exact hA
    · cases Except.ok.inj hB; exact hA
  have hgoto : ∀ (kindName : String) (stmt : Statement) (c c' : CFG), EdgeInvariant c →
      gotoEdges lm kindName stmt c = .ok c' → EdgeInvariant c' := by
    intro kindName stmt c c' hA hB
    unfold gotoEdges at hB
    split at hB
    · split at hB
      · split at hB
        · split at hB
          · exact edgeInvariant_add_edge hA hB
          · cases Except.ok.inj hB; exact hA
        · cases Except.ok.inj hB; exact hA
      · cases Except.ok.inj hB; exact hA
    · cases Except.ok.inj hB; exact hA
  have hswg : ∀ (stmt : Statement) (c c' : CFG), EdgeInvariant c →
      switchGotoEdges lm stmt c = .ok c' → EdgeInvariant c' := by
    intro stmt c c' hA hB
    unfold switchGotoEdges at hB
    split at hB
    · refine foldlM_preserve EdgeInvariant _ ?_ _ _ _ hA hB
      intro c6 tgt c7 h6 hstep2
      split at hstep2
      · exact edgeInvariant_add_edge h6 hstep2
      · cases Except.ok.inj hstep2; exact h6
    · cases Except.ok.inj hB; exact hA
  unfold jumpStep at hstep
  obtain ⟨c1, hc1, hstep⟩ := except_bind_ok hstep
  obtain ⟨c2, hc2, hstep⟩ := except_bind_ok hstep
  obtain ⟨c3, hc3, hstep⟩ := except_bind_ok hstep
  obtain ⟨c4, hc4, hstep⟩ := except_bind_ok hstep
  obtain ⟨c5, hc5, hstep⟩ := except_bind_ok hstep
  have hI1 := hbreak _ _ _ _ h1 hc1
  have hI2 := hcont _ _ _ _ hI1 hc2
  have hI3 := hgoto _ _ _ _ hI2 hc3
  have hI4 := hgoto _ _ _ _ hI3 hc4
  have hI5 := hswg _ _ _ hI4 hc5
  cases Except.ok.inj hstep
  exact hI5

theorem initialNodes_aux_predecessors :
    ∀ (stmts : List Statement) (m : List (Nat × CFGNode)),
      (∀ k n, dictGet? m k = some n → n.predecessors = []) →
      ∀ k n,
        dictGet? (stmts.foldl (fun acc s => dictInsert acc s.sid ⟨s, [], []⟩) m) k = some n →
        n.predecessors = [] := by
  intro stmts
  induction stmts with
  | nil => intro m hm; exact hm
  | cons s rest ih =>
    intro m hm
    refine ih _ ?_
    intro k n hk
    rw [dictGet?_dictInsert] at hk
    by_cases hks : k == s.sid
    · rw [if_pos hks] at hk
      cases Option.some.inj hk
      rfl
    · rw [if_neg hks] at hk
      exact hm k n hk

theorem edgeInvariant_initial (stmts : List Statement) (e x : Option Nat) :
    EdgeInvariant ⟨initialNodes stmts, e, x⟩ := by
  constructor
  · intro k n hk
    have hs := initialNodes_aux_successors stmts [] (by intro k n h; cases h) k n hk
    have hp := initialNodes_aux_predecessors stmts [] (by intro k n h; cases h) k n hk
    rw [hs, hp]
    exact ⟨List.nodup_nil, List.nodup_nil⟩
  · intro a b
    constructor
    · rintro ⟨na, hna, hb⟩
      rw [initialNodes_aux_successors stmts [] (by intro k n h; cases h) a na hna] at hb
      cases hb
    · rintro ⟨nb, hnb, ha⟩
      rw [initialNodes_aux_predecessors stmts [] (by intro k n h; cases h) b nb hnb] at ha
      cases ha

theorem edgeInvariant_build_cfg {stmts : List Statement} {cfg : CFG}
    (h : build_cfg stmts = .ok cfg) : EdgeInvariant cfg := by
  simp only [build_cfg] at h
  split at h
  · cases Except.ok.inj h
    constructor
    · intro k n hk
      simp [dictGet?] at hk
    · intro a b
      simp [dictGet?]
  · obtain ⟨entrySid, _, h⟩ := except_bind_ok h
    obtain ⟨exitSid, _, h⟩ := except_bind_ok h
    obtain ⟨c1, hc1, h⟩ := except_bind_ok h
    obtain ⟨c2, hc2, h⟩ := except_bind_ok h
    obtain ⟨c3, hc3, h⟩ := except_bind_ok h
    obtain ⟨c4, hc4, h⟩ := except_bind_ok h
    obtain ⟨c5, hc5, h⟩ := except_bind_ok h
    obtain ⟨c6, hc6, h⟩ := except_bind_ok h
    obtain ⟨c7, hc7, h⟩ := except_bind_ok h
    obtain ⟨res, hres, h⟩ := except_bind_ok h
    have hI1 : EdgeInvariant c1 :=
      edgeInvariant_sequentialPass (edgeInvariant_initial stmts _ _) hc1
    have hI2 : EdgeInvariant c2 := edgeInvariant_branchPass hI1 hc2
    have hI3 : EdgeInvariant c3 := edgeInvariant_elseJoinPass hI2 hc3
    have hI4 : EdgeInvariant c4 := edgeInvariant_elseJoinPass hI3 hc4
    have hI5 : EdgeInvariant c5 := edgeInvariant_loopPass hI4 hc5
    have hI6 : EdgeInvariant c6 := edgeInvariant_switchPass hI5 hc6
    have hI7 : EdgeInvariant c7 := edgeInvariant_doTailPass hI6 hc7
    have hIres : EdgeInvariant res.1 := by
      refine foldlM_preserve (fun st => EdgeInvariant st.1) _ ?_ _ (c7, []) res hI7 hres
      intro stA pA stB hA hB
      exact edgeInvariant_jumpStep stA pA stB hA hB
    cases Except.ok.inj h
    exact hIres

theorem edgeInvariant_applyEdgeOps :
    ∀ (ops : List EdgeOp) (c c' : CFG),
      EdgeInvariant c → applyEdgeOps c ops = .ok c' → EdgeInvariant c' := by
  intro ops
  induction ops with
  | nil =>
    intro c c' h1 h
    cases Except.ok.inj h
    exact h1
  | cons op rest ih =>
    intro c c' h1 h
    cases op with
    | add s t =>
      simp only [applyEdgeOps] at h
      obtain ⟨c1, hc1, h2⟩ := except_bind_ok h
      exact ih c1 c' (edgeInvariant_add_edge h1 hc1) h2
    | remove s t =>
      simp only [applyEdgeOps] at h
      obtain ⟨c1, hc1, h2⟩ := except_bind_ok h
      exact ih c1 c' (edgeInvariant_remove_edge h1 hc1) h2

theorem mem_dictGet?_of_keysNodup {κ α : Type} [BEq κ] [LawfulBEq κ] :
    ∀ {m : List (κ × α)}, (m.map Prod.fst).Nodup → ∀ {p : κ × α}, p ∈ m →
      dictGet? m p.1 = some p.2 := by
  intro m
  induction m with
  | nil => intro _ p hp; cases hp
  | cons q rest ih =>
    intro hnd p hp
    rw [List.map_cons, List.nodup_cons] at hnd
    rcases List.mem_cons.mp hp with rfl | hp'
    · simp [dictGet?_cons]
    · have hne : q.1 ≠ p.1 := by
        intro hc
        exact hnd.1 (hc ▸ List.mem_map_of_mem Prod.fst hp')
      rw [dictGet?_cons, if_neg (by simpa using hne)]
      exact ih hnd.2 hp'

theorem map_pointwise_id {β : Type} (f : β → β) :
    ∀ (l : List β), (∀ p ∈ l, f p = p) → l.map f = l := by
  intro l
  induction l with
  | nil => intro _; rfl
  | cons a as ih =>
    intro hall
    rw [List.map_cons, hall a (List.mem_cons_self a as),
      ih (fun p hp => hall p (List.mem_cons_of_mem a hp))]

theorem add_edge_noop {cfg : CFG} {s t : Nat}
    (hkeys : (cfg.nodes.map Prod.fst).Nodup) (hinv : EdgeInvariant cfg)
    (h : cfg.hasEdge s t = true) : cfg.add_edge s t = .ok cfg := by
  obtain ⟨ns, hns, hmem⟩ := (hasEdge_iff _ _ _).mp h
  obtain ⟨nt, hnt, hmem'⟩ := (hinv.2 s t).mp ⟨ns, hns, hmem⟩
  have hc : dictContains cfg.nodes s = true ∧ dictContains cfg.nodes t = true :=
    ⟨(dictContains_iff _ _).mpr ⟨ns, hns⟩, (dictContains_iff _ _).mpr ⟨nt, hnt⟩⟩
  have hmod1 : dictModify cfg.nodes s (addSuccessor t) = cfg.nodes := by
    refine map_pointwise_id _ _ ?_
    intro p hp
    by_cases hps : p.1 == s
    · have hlook := mem_dictGet?_of_keysNodup hkeys hp
      rw [beq_iff_eq.mp hps, hns] at hlook
      have hp2 : p.2 = ns := (Option.some.inj hlook).symm
      have hfix : addSuccessor t p.2 = p.2 := by
        rw [hp2]; unfold addSuccessor; rw [if_pos hmem]
      rw [if_pos hps, hfix]
    · rw [if_neg hps]
  have hmod2 : dictModify cfg.nodes t (addPredecessor s) = cfg.nodes := by
    refine map_pointwise_id _ _ ?_
    intro p hp
    by_cases hpt : p.1 == t
    · have hlook := mem_dictGet?_of_keysNodup hkeys hp
      rw [beq_iff_eq.mp hpt, hnt] at hlook
      have hp2 : p.2 = nt := (Option.some.inj hlook).symm
      have hfix : addPredecessor s p.2 = p.2 := by
        rw [hp2]; unfold addPredecessor; rw [if_pos hmem']
      rw [if_pos hpt, hfix]
    · rw [if_neg hpt]
  have hval : cfg.add_edge s t =
      .ok ⟨dictModify (dictModify cfg.nodes s (addSuccessor t)) t (addPredecessor s),
           cfg.entry, cfg.exit⟩ := by
    simp only [CFG.add_edge, if_neg (not_not_intro hc)]
  rw [hval, hmod1, hmod2]

theorem except_ok_bind {ε α β : Type} (a : α) (f : α → Except ε β) :
    (Except.ok a : Except ε α) >>= f = f a := rfl

theorem dictGet?_mem {κ α : Type} [BEq κ] [LawfulBEq κ] {m : List (κ × α)} {k : κ} {v : α}
    (h : dictGet? m k = some v) : (k, v) ∈ m := by
  unfold dictGet? at h
  cases hf : m.find? (fun p => p.1 == k) with
  | none => rw [hf] at h; cases h
  | some p =>
    rw [hf] at h
    rcases p with ⟨a, b⟩
    have h2 : b = v := Option.some.inj h
    have hpk := List.find?_some hf
    have h1 : a = k := beq_iff_eq.mp hpk
    have hp := List.mem_of_find?_eq_some hf
    rw [← h1, ← h2]
    exact hp

theorem mem_dictInsert {κ α : Type} [BEq κ] [LawfulBEq κ] {m : List (κ × α)} {k : κ} {v : α}
    {p : κ × α} (hp : p ∈ dictInsert m k v) : p ∈ m ∨ p = (k, v) := by
  unfold dictInsert at hp
  split at hp
  · obtain ⟨q, hq, hqe⟩ := List.mem_map.mp hp
    by_cases hqk : q.1 == k
    · rw [if_pos hqk] at hqe
      exact Or.inr hqe.symm
    · rw [if_neg hqk] at hqe
      exact Or.inl (hqe ▸ hq)
  · rcases List.mem_append.mp hp with h | h
    · exact Or.inl h
    · exact Or.inr (List.mem_singleton.mp h)

theorem dictContains_dictModify {κ α : Type} [BEq κ] (m : List (κ × α)) (k' k : κ)
    (f : α → α) : dictContains (dictModify m k f) k' = dictContains m k' := by
  unfold dictContains dictModify
  rw [List.any_map]
  have : ((fun (p : κ × α) => p.1 == k') ∘ fun p => if p.1 == k then (p.1, f p.2) else p) =
      (fun (p : κ × α) => p.1 == k') := by
    funext p
    by_cases h : p.1 == k <;> simp [Function.comp, h]
  rw [this]

theorem dictContains_dictInsert {κ α : Type} [BEq κ] [LawfulBEq κ] (m : List (κ × α))
    (k' k : κ) (v : α) :
    dictContains (dictInsert m k v) k' = (k' == k || dictContains m k') := by
  unfold dictInsert
  split
  · next hany =>
    by_cases he : k' = k
    · subst he
      have h1 : dictContains (m.map fun p => if p.1 == k' then (k', v) else p) k' = true := by
        obtain ⟨p, hp, hpk⟩ := List.any_eq_true.mp hany
        unfold dictContains
        rw [List.any_map]
        exact List.any_eq_true.mpr ⟨p, hp, by simp [Function.comp, hpk]⟩
      rw [h1]
      simp
    · have h2 : dictContains (m.map fun p => if p.1 == k then (k, v) else p) k' =
          dictContains m k' := by
        unfold dictContains
        rw [List.any_map]
        congr 1
        funext p
        by_cases h : p.1 == k
        · have hk1 : p.1 = k := beq_iff_eq.mp h
          have hkk : (k == k') = false := by
            simp only [beq_eq_false_iff_ne, ne_eq]
            exact fun hc => he hc.symm
          simp [Function.comp, h, hkk, hk1]
        · simp [Function.comp, h]
      rw [h2]
      have hb : (k' == k) = false := by simpa using he
      rw [hb, Bool.false_or]
  · unfold dictContains
    rw [List.any_append]
    by_cases he : k' = k
    · subst he
      simp
    · have hb : (k' == k) = false := by simpa using he
      have hb' : (k == k') = false := by
        simp only [beq_eq_false_iff_ne, ne_eq]
        exact fun hc => he hc.symm
      simp [hb, hb']

theorem add_edge_total {cfg : CFG} {a b : Nat}
    (ha : dictContains cfg.nodes a = true) (hb : dictContains cfg.nodes b = true) :
    ∃ r, cfg.add_edge a b = .ok r ∧
      ∀ k, dictContains r.nodes k = dictContains cfg.nodes k := by
  have hc : dictContains cfg.nodes a = true ∧ dictContains cfg.nodes b = true := ⟨ha, hb⟩
  refine ⟨⟨dictModify (dictModify cfg.nodes a (addSuccessor b)) b (addPredecessor a),
    cfg.entry, cfg.exit⟩, ?_, ?_⟩
  · simp only [CFG.add_edge, if_neg (not_not_intro hc)]
  · intro k
    rw [dictContains_dictModify, dictContains_dictModify]

theorem remove_edge_total (cfg : CFG) (a b : Nat) :
    ∃ r, cfg.remove_edge a b = .ok r ∧
      ∀ k, dictContains r.nodes k = dictContains cfg.nodes k := by
  by_cases hc : dictContains cfg.nodes a = true ∧ dictContains cfg.nodes b = true
  · refine ⟨⟨dictModify (dictModify cfg.nodes a (removeSuccessor b)) b (removePredecessor a),
      cfg.entry, cfg.exit⟩, ?_, ?_⟩
    · simp only [CFG.remove_edge, if_neg (not_not_intro hc)]
    · intro k
      rw [dictContains_dictModify, dictContains_dictModify]
  · exact ⟨cfg, by simp only [CFG.remove_edge, if_pos hc], fun k => rfl⟩

theorem sidAtE_ok {stmts : List Statement} {i : Nat} (h : i < stmts.length) :
    ∃ st, stmts.get? i = some st ∧ st ∈ stmts ∧ sidAtE stmts i = .ok st.sid := by
  have hg : stmts.get? i = some (stmts.get ⟨i, h⟩) := List.get?_eq_get h
  exact ⟨_, hg, List.get?_mem hg, by unfold sidAtE; rw [hg]⟩

theorem mem_enum_facts {l : List Statement} {p : Nat × Statement} (hp : p ∈ l.enum) :
    p.1 < l.length ∧ l.get? p.1 = some p.2 ∧ p.2 ∈ l := by
  have hg := List.mem_enum_iff_get?.mp hp
  have hlt : p.1 < l.length := by
    by_contra hge
    rw [List.get?_eq_none.mpr (Nat.le_of_not_lt hge)] at hg
    cases hg
  exact ⟨hlt, hg, List.get?_mem hg⟩

theorem foldlM_total {σ α : Type} (P : σ → Prop) (step : σ → α → Except String σ) :
    ∀ (l : List α),
      (∀ c a, a ∈ l → P c → ∃ c', step c a = .ok c' ∧ P c') →
      ∀ c, P c → ∃ c', l.foldlM step c = .ok c' ∧ P c' := by
  intro l
  induction l with
  | nil =>
    intro _ c hc
    exact ⟨c, rfl, hc⟩
  | cons a rest ih =>
    intro hstep c hc
    obtain ⟨c1, h1, hP1⟩ := hstep c a (List.mem_cons_self a rest) hc
    obtain ⟨c', h2, hP2⟩ :=
      ih (fun cx x hx hcx => hstep cx x (List.mem_cons_of_mem a hx) hcx) c1 hP1
    refine ⟨c', ?_, hP2⟩
    rw [List.foldlM_cons, h1, except_ok_bind]
    exact h2

theorem foldl_pred {σ β : Type} (Q : σ → Prop) (step : σ → β → σ) :
    ∀ (l : List β), (∀ s b, b ∈ l → Q s → Q (step s b)) → ∀ s, Q s → Q (l.foldl step s) := by
  intro l
  induction l with
  | nil => intro _ s hs; exact hs
  | cons b rest ih =>
    intro hstep s hs
    exact ih (fun sx x hx hsx => hstep sx x (List.mem_cons_of_mem b hx) hsx)
      (step s b) (hstep s b (List.mem_cons_self b rest) hs)

theorem mem_popContexts {ci : List (Nat × ControlInfo)} {idx : Nat} :
    ∀ (stack : List Nat) (i : Nat), i ∈ popContexts ci idx stack → i ∈ stack := by
  intro stack
  induction stack with
  | nil => intro i hi; cases hi
  | cons top rest ih =>
    intro i hi
    unfold popContexts at hi
    split at hi
    · exact List.mem_cons_of_mem top (ih i hi)
    · exact hi

theorem buildBlockPairsAux_bound {n : Nat} :
    ∀ (l : List (Nat × Statement)) (stack : List Nat) (pairs : List (Nat × Nat)),
      (∀ q ∈ l, q.1 < n) → (∀ i ∈ stack, i < n) → (∀ p ∈ pairs, p.1 < n ∧ p.2 < n) →
      ∀ p ∈ (buildBlockPairsAux l stack pairs).2, p.1 < n ∧ p.2 < n := by
  intro l
  induction l with
  | nil => intro stack pairs _ _ hpairs p hp; exact hpairs p hp
  | cons q rest ih =>
    intro stack pairs hl hstack hpairs p hp
    rcases q with ⟨idx, stmt⟩
    have hidx : idx < n := hl (idx, stmt) (List.mem_cons_self _ _)
    have hl' : ∀ q ∈ rest, q.1 < n := fun q hq => hl q (List.mem_cons_of_mem _ hq)
    simp only [buildBlockPairsAux] at hp
    split at hp
    · refine ih _ _ hl' ?_ hpairs p hp
      intro i hi
      rcases List.mem_cons.mp hi with rfl | h
      · exact hidx
      · exact hstack i h
    · split at hp
      · split at hp
        · exact ih _ _ hl' (fun i hi => by cases hi) hpairs p hp
        · next start_idx stack' =>
          refine ih _ _ hl' (fun i hi => hstack i (List.mem_cons_of_mem _ hi)) ?_ p hp
          intro p' hp'
          rcases mem_dictInsert hp' with h | rfl
          · exact hpairs p' h
          · exact ⟨hstack start_idx (List.mem_cons_self _ _), hidx⟩
      · exact ih _ _ hl' hstack hpairs p hp

theorem buildBlockPairs_bound (stmts : List Statement) :
    ∀ p ∈ buildBlockPairs stmts, p.1 < stmts.length ∧ p.2 < stmts.length := by
  intro p hp
  refine buildBlockPairsAux_bound stmts.enum [] [] ?_ ?_ ?_ p hp
  · intro q hq; exact (mem_enum_facts hq).1
  · intro i hi; cases hi
  · intro q hq; cases hq

theorem bodyRange_bounded {stmts : List Statement} {bp : List (Nat × Nat)}
    (hbp : ∀ p ∈ bp, p.2 < stmts.length) (i : Nat) :
    ControlInfoBounded stmts.length (bodyRange i stmts bp) := by
  unfold ControlInfoBounded
  simp only [bodyRange]
  split
  · refine ⟨?_, ?_, ?_⟩
    · intro s hs; exact absurd hs (by simp)
    · intro e he; exact absurd he (by simp)
    · intro a ha; exact absurd ha (by simp)
  · next hge =>
    have hlt : i + 1 < stmts.length := by omega
    refine ⟨?_, ?_, ?_⟩
    · intro s hs
      cases Option.some.inj hs
      exact hlt
    · intro e he
      cases Option.some.inj he
      split
      · cases hg : dictGet? bp (i + 1) with
        | none => simpa using hlt
        | some v => simpa [hg] using hbp (i + 1, v) (dictGet?_mem hg)
      · exact hlt
    · intro a ha
      dsimp only at ha
      set E := (if kindAt stmts (i + 1) == "block_start"
        then (dictGet? bp (i + 1)).getD (i + 1) else i + 1) with hE
      by_cases hcond : E + 1 < stmts.length
      · rw [if_pos hcond] at ha
        cases Option.some.inj ha
        exact hcond
      · rw [if_neg hcond] at ha
        cases ha

theorem buildControlInfo_bounded {stmts : List Statement} :
    ∀ i ci, dictGet? (buildControlInfo stmts (buildBlockPairs stmts)) i = some ci →
      ControlInfoBounded stmts.length ci := by
  intro i ci hget
  have hmem := dictGet?_mem hget
  have hall : ∀ p ∈ buildControlInfo stmts (buildBlockPairs stmts),
      ControlInfoBounded stmts.length p.2 := by
    unfold buildControlInfo
    refine foldl_pred
      (fun acc : List (Nat × ControlInfo) =>
        ∀ (p : Nat × ControlInfo), p ∈ acc → ControlInfoBounded stmts.length p.2)
      _ stmts.enum ?_ [] (by intro p hp; cases hp)
    intro acc b _ hacc p hp
    split at hp
    · rcases mem_dictInsert hp with h | rfl
      · exact hacc p h
      · exact bodyRange_bounded (fun q hq => (buildBlockPairs_bound stmts q hq).2) b.1
    · exact hacc p hp
  exact hall (i, ci) hmem

theorem buildDoTail_bound {stmts : List Statement} {bo : List (Nat × Nat)} :
    ∀ p ∈ (buildDoTail stmts (buildBlockPairs stmts) bo
        (buildControlInfo stmts (buildBlockPairs stmts))).1,
      p.2 < stmts.length := by
  unfold buildDoTail
  refine foldl_pred
    (fun acc : List (Nat × Nat) × List Nat =>
      ∀ (p : Nat × Nat), p ∈ acc.1 → p.2 < stmts.length)
    _ stmts.enum ?_ _ ?_
  · intro acc b _ hacc p hp
    by_cases hk : b.2.kind ≠ "do"
    · rw [if_pos hk] at hp
      exact hacc p hp
    · rw [if_neg hk] at hp
      cases hget : dictGet? (buildControlInfo stmts (buildBlockPairs stmts)) b.1 with
      | none =>
        simp only [hget] at hp
        exact hacc p hp
      | some info =>
        simp only [hget] at hp
        cases hab : info.after_body with
        | none =>
          simp only [hab] at hp
          exact hacc p hp
        | some a =>
          simp only [hab] at hp
          split at hp
          · rcases mem_dictInsert hp with h | rfl
            · exact hacc p h
            · exact (buildControlInfo_bounded _ _ hget).2.2 a hab
          · exact hacc p hp
  · refine foldl_pred
      (fun acc : List (Nat × Nat) × List Nat =>
        ∀ (p : Nat × Nat), p ∈ acc.1 → p.2 < stmts.length)
      _ (buildBlockPairs stmts) ?_ ([], []) (by intro p hp; cases hp)
    intro acc b hb hacc p hp
    cases hget : dictGet? bo b.1 with
    | none =>
      simp only [hget] at hp
      exact hacc p hp
    | some owner =>
      simp only [hget] at hp
      by_cases hk : kindAt stmts owner ≠ "do"
      · rw [if_pos hk] at hp
        exact hacc p hp
      · rw [if_neg hk] at hp
        by_cases ht : b.2 + 1 < stmts.length
        · rw [if_pos ht] at hp
          split at hp
          · rcases mem_dictInsert hp with h | rfl
            · exact hacc p h
            · exact ht
          · exact hacc p hp
        · rw [if_neg ht] at hp
          exact hacc p hp

theorem findElseChainJoin_bound {stmts : List Statement} {ci : List (Nat × ControlInfo)}
    (hci : ∀ i c, dictGet? ci i = some c → ControlInfoBounded stmts.length c) :
    ∀ (fuel cur : Nat) (acc : Option Nat),
      (∀ j0, acc = some j0 → j0 < stmts.length) →
      ∀ j, findElseChainJoin stmts ci fuel cur acc = some j → j < stmts.length := by
  intro fuel
  induction fuel with
  | zero => intro cur acc hacc j h; exact hacc j h
  | succ f ih =>
    intro cur acc hacc j h
    simp only [findElseChainJoin] at h
    split at h
    · cases hget : dictGet? ci cur with
      | none =>
        simp only [hget] at h
        exact hacc j h
      | some c =>
        simp only [hget] at h
        cases hab : c.after_body with
        | none =>
          simp only [hab] at h
          cases h
        | some jj =>
          have hjj : jj < stmts.length := (hci _ _ hget).2.2 jj hab
          simp only [hab] at h
          split at h
          · exact ih jj (some jj) (fun j0 e => by cases Option.some.inj e; exact hjj) j h
          · cases Option.some.inj h
            exact hjj
    · exact hacc j h

theorem breakTarget_bound {stmts : List Statement} {ci : List (Nat × ControlInfo)}
    {dtm : List (Nat × Nat)}
    (hci : ∀ i c, dictGet? ci i = some c → ControlInfoBounded stmts.length c)
    (hdtm : ∀ k v, dictGet? dtm k = some v → v < stmts.length) :
    ∀ (stack : List Nat) (ti : Nat),
      breakTarget stmts ci dtm stack = some ti → ti < stmts.length := by
  intro stack
  induction stack with
  | nil => intro ti h; cases h
  | cons ctx rest ih =>
    intro ti h
    simp only [breakTarget] at h
    split at h
    · split at h
      · cases hdt : dictGet? dtm ctx with
        | some tail_idx =>
          simp only [hdt] at h
          split at h
          · next hcond =>
            cases Option.some.inj h
            exact hcond
          · cases h
        | none =>
          simp only [hdt] at h
          cases hg : dictGet? ci ctx with
          | none => simp [hg, emptyControlInfo] at h
          | some c =>
            simp only [hg, Option.getD_some] at h
            exact (hci _ _ hg).2.2 ti h
      · cases hg : dictGet? ci ctx with
        | none => simp [hg, emptyControlInfo] at h
        | some c =>
          simp only [hg, Option.getD_some] at h
          exact (hci _ _ hg).2.2 ti h
    · exact ih ti h

theorem continueTarget_bound {stmts : List Statement} {dtm : List (Nat × Nat)}
    (hdtm : ∀ k v, dictGet? dtm k = some v → v < stmts.length) :
    ∀ (stack : List Nat), (∀ i ∈ stack, i < stmts.length) →
      ∀ ti, continueTarget stmts dtm stack = some ti → ti < stmts.length := by
  intro stack
  induction stack with
  | nil => intro _ ti h; cases h
  | cons ctx rest ih =>
    intro hstack ti h
    simp only [continueTarget] at h
    split at h
    · cases hdt : dictGet? dtm ctx with
      | some v =>
        simp only [hdt, Option.getD_some] at h
        cases Option.some.inj h
        exact hdtm ctx ti hdt
      | none =>
        simp only [hdt, Option.getD_none] at h
        cases Option.some.inj h
        exact hstack ctx (List.mem_cons_self _ _)
    · exact ih (fun i hi => hstack i (List.mem_cons_of_mem _ hi)) ti h

theorem initialNodes_contains {stmts : List Statement} :
    ∀ s ∈ stmts, dictContains (initialNodes stmts) s.sid = true := by
  have hmono : ∀ (l : List Statement) (m : List (Nat × CFGNode)) (k : Nat),
      dictContains m k = true →
      dictContains (l.foldl (fun acc s => dictInsert acc s.sid ⟨s, [], []⟩) m) k = true := by
    intro l
    induction l with
    | nil => intro m k h; exact h
    | cons s rest ih =>
      intro m k h
      refine ih _ k ?_
      rw [dictContains_dictInsert, h, Bool.or_true]
  have haux : ∀ (l : List Statement) (m : List (Nat × CFGNode)), ∀ s ∈ l,
      dictContains (l.foldl (fun acc st => dictInsert acc st.sid ⟨st, [], []⟩) m) s.sid
        = true := by
    intro l
    induction l with
    | nil => intro m s hs; cases hs
    | cons q rest ih =>
      intro m s hs
      simp only [List.foldl_cons]
      rcases List.mem_cons.mp hs with rfl | hs'
      · exact hmono rest _ s.sid (by rw [dictContains_dictInsert]; simp)
      · exact ih _ s hs'
  intro s hs
  exact haux stmts [] s hs

theorem containsAll_preserve {stmts : List Statement} {c r : CFG} (hP : ContainsAll stmts c)
    (hkeys : ∀ k, dictContains r.nodes k = dictContains c.nodes k) : ContainsAll stmts r :=
  fun s hs => by rw [hkeys s.sid]; exact hP s hs

theorem sequentialPass_total {stmts : List Statement} (cfg : CFG)
    (hP : ContainsAll stmts cfg) :
    ∃ c', sequentialPass stmts cfg = .ok c' ∧ ContainsAll stmts c' := by
  unfold sequentialPass
  refine foldlM_total (ContainsAll stmts) sequentialStep _ ?_ cfg hP
  intro c p hp hc
  unfold sequentialStep
  split
  · exact ⟨c, rfl, hc⟩
  · have h1 : p.1 ∈ stmts := (List.of_mem_zip hp).1
    have h2 : p.2 ∈ stmts := List.mem_of_mem_tail (List.of_mem_zip hp).2
    obtain ⟨r, hr, hkeys⟩ := add_edge_total (hc p.1 h1) (hc p.2 h2)
    exact ⟨r, hr, containsAll_preserve hc hkeys⟩

theorem branchPass_total {stmts : List Statement} {ci : List (Nat × ControlInfo)}
    (hci : ∀ i c, dictGet? ci i = some c → ControlInfoBounded stmts.length c)
    (cfg : CFG) (hP : ContainsAll stmts cfg) :
    ∃ c', branchPass stmts ci cfg = .ok c' ∧ ContainsAll stmts c' := by
  unfold branchPass
  refine foldlM_total (ContainsAll stmts) _ _ ?_ cfg hP
  intro c p hp hc
  split
  · exact ⟨c, rfl, hc⟩
  · cases hget : dictGet? ci p.1 with
    | none => exact ⟨c, rfl, hc⟩
    | some info =>
      simp only [hget]
      cases hab : info.after_body with
      | none => exact ⟨c, rfl, hc⟩
      | some a =>
        simp only [hab]
        have ha : a < stmts.length := (hci _ _ hget).2.2 a hab
        obtain ⟨st, hgst, hmst, hsid⟩ := sidAtE_ok ha
        rw [hsid, except_ok_bind]
        have hp2 : p.2 ∈ stmts := (mem_enum_facts hp).2.2
        obtain ⟨r, hr, hkeys⟩ := add_edge_total (hc p.2 hp2) (hc st hmst)
        split
        · exact ⟨r, hr, containsAll_preserve hc hkeys⟩
        · exact ⟨r, hr, containsAll_preserve hc hkeys⟩

theorem elseJoinPass_total {stmts : List Statement} {ci : List (Nat × ControlInfo)}
    (hci : ∀ i c, dictGet? ci i = some c → ControlInfoBounded stmts.length c)
    (kinds : List String) (cfg : CFG) (hP : ContainsAll stmts cfg) :
    ∃ c', elseJoinPass kinds stmts ci cfg = .ok c' ∧ ContainsAll stmts c' := by
  unfold elseJoinPass
  refine foldlM_total (ContainsAll stmts) _ _ ?_ cfg hP
  intro c p hp hc
  split
  · exact ⟨c, rfl, hc⟩
  · cases hget : dictGet? ci p.1 with
    | none => exact ⟨c, rfl, hc⟩
    | some info =>
      simp only [hget]
      cases hbe : info.body_end with
      | none =>
        cases hab : info.after_body <;> simp only [hbe, hab] <;> exact ⟨c, rfl, hc⟩
      | some bodyEnd =>
        cases hab : info.after_body with
        | none => simp only [hbe, hab]; exact ⟨c, rfl, hc⟩
        | some a =>
          simp only [hbe, hab]
          split
          · exact ⟨c, rfl, hc⟩
          · cases hj : findElseChainJoin stmts ci (stmts.length + 1) a none with
            | none => exact ⟨c, rfl, hc⟩
            | some join_idx =>
              simp only [hj]
              have hbe' : bodyEnd < stmts.length := (hci _ _ hget).2.1 bodyEnd hbe
              have ha' : a < stmts.length := (hci _ _ hget).2.2 a hab
              have hjoin : join_idx < stmts.length :=
                findElseChainJoin_bound hci (stmts.length + 1) a none
                  (fun j0 e => by cases e) join_idx hj
              obtain ⟨s1, _, hm1, hsid1⟩ := sidAtE_ok hbe'
              obtain ⟨s2, _, hm2, hsid2⟩ := sidAtE_ok ha'
              obtain ⟨s3, _, hm3, hsid3⟩ := sidAtE_ok hjoin
              rw [hsid1, except_ok_bind, hsid2, except_ok_bind, hsid3, except_ok_bind]
              obtain ⟨r1, hr1, hkeys1⟩ := remove_edge_total c s1.sid s2.sid
              rw [hr1, except_ok_bind]
              have hP1 := containsAll_preserve hc hkeys1
              obtain ⟨r2, hr2, hkeys2⟩ := add_edge_total (hP1 s1 hm1) (hP1 s3 hm3)
              exact ⟨r2, hr2, containsAll_preserve hP1 hkeys2⟩

theorem loopPass_total {stmts : List Statement} {ci : List (Nat × ControlInfo)}
    {dts : List Nat}
    (hci : ∀ i c, dictGet? ci i = some c → ControlInfoBounded stmts.length c)
    (cfg : CFG) (hP : ContainsAll stmts cfg) :
    ∃ c', loopPass stmts ci dts cfg = .ok c' ∧ ContainsAll stmts c' := by
  unfold loopPass
  refine foldlM_total (ContainsAll stmts) _ _ ?_ cfg hP
  intro c p hp hc
  split
  · exact ⟨c, rfl, hc⟩
  · cases hget : dictGet? ci p.1 with
    | none => exact ⟨c, rfl, hc⟩
    | some info =>
      simp only [hget]
      cases hbs : info.body_start with
      | none =>
        cases hbe : info.body_end <;> simp only [hbs, hbe] <;> exact ⟨c, rfl, hc⟩
      | some bodyStart =>
        cases hbe : info.body_end with
        | none => simp only [hbs, hbe]; exact ⟨c, rfl, hc⟩
        | some bodyEnd =>
          simp only [hbs, hbe]
          have hbe' : bodyEnd < stmts.length := (hci _ _ hget).2.1 bodyEnd hbe
          obtain ⟨sE, _, hmE, hsidE⟩ := sidAtE_ok hbe'
          rw [hsidE, except_ok_bind]
          have hp2 : p.2 ∈ stmts := (mem_enum_facts hp).2.2
          cases hab : info.after_body with
          | none =>
            simp only [hab, except_ok_bind]
            obtain ⟨r1, hr1, hkeys1⟩ := add_edge_total (hc sE hmE) (hc p.2 hp2)
            rw [hr1, except_ok_bind]
            exact ⟨r1, rfl, containsAll_preserve hc hkeys1⟩
          | some a =>
            simp only [hab]
            have ha' : a < stmts.length := (hci _ _ hget).2.2 a hab
            obtain ⟨sA, _, hmA, hsidA⟩ := sidAtE_ok ha'
            rw [hsidA, except_ok_bind]
            obtain ⟨r1, hr1, hkeys1⟩ := add_edge_total (hc p.2 hp2) (hc sA hmA)
            rw [hr1, except_ok_bind]
            have hP1 := containsAll_preserve hc hkeys1
            obtain ⟨r2, hr2, hkeys2⟩ := add_edge_total (hP1 sE hmE) (hP1 p.2 hp2)
            rw [hr2, except_ok_bind, except_ok_bind]
            have hP2 := containsAll_preserve hP1 hkeys2
            obtain ⟨r3, hr3, hkeys3⟩ := remove_edge_total r2 sE.sid sA.sid
            exact ⟨r3, hr3, containsAll_preserve hP2 hkeys3⟩

theorem buildLabelMap_sids {stmts : List Statement} :
    ∀ p ∈ buildLabelMap stmts, ∃ s ∈ stmts, p.2 = s.sid := by
  unfold buildLabelMap
  refine foldl_pred
    (fun acc : List (String × Nat) =>
      ∀ (p : String × Nat), p ∈ acc → ∃ s ∈ stmts, p.2 = s.sid)
    _ stmts ?_ [] (by intro p hp; cases hp)
  intro acc b hb hacc p hp
  cases hl : b.label with
  | none =>
    simp only [hl] at hp
    exact hacc p hp
  | some lbl =>
    simp only [hl] at hp
    split at hp
    · rcases mem_dictInsert hp with h | rfl
      · exact hacc p h
      · exact ⟨b, hb, rfl⟩
    · exact hacc p hp

theorem switchPass_total {stmts : List Statement} {ci : List (Nat × ControlInfo)}
    (hci : ∀ i c, dictGet? ci i = some c → ControlInfoBounded stmts.length c)
    (cfg : CFG) (hP : ContainsAll stmts cfg) :
    ∃ c', switchPass stmts ci cfg = .ok c' ∧ ContainsAll stmts c' := by
  unfold switchPass
  refine foldlM_total (ContainsAll stmts) _ _ ?_ cfg hP
  intro c p hp hc
  split
  · exact ⟨c, rfl, hc⟩
  · cases hget : dictGet? ci p.1 with
    | none => exact ⟨c, rfl, hc⟩
    | some info =>
      simp only [hget]
      cases hbs : info.body_start with
      | none =>
        cases hbe : info.body_end <;> simp only [hbs, hbe] <;> exact ⟨c, rfl, hc⟩
      | some bodyStart =>
        cases hbe : info.body_end with
        | none => simp only [hbs, hbe]; exact ⟨c, rfl, hc⟩
        | some bodyEnd =>
          simp only [hbs, hbe]
          have hbs' : bodyStart < stmts.length := (hci _ _ hget).1 bodyStart hbs
          have hbe' : bodyEnd < stmts.length := (hci _ _ hget).2.1 bodyEnd hbe
          have hp2 : p.2 ∈ stmts := (mem_enum_facts hp).2.2
          have hinner : ∀ (c0 : CFG), ContainsAll stmts c0 →
              ∃ c', (List.range' bodyStart (bodyEnd + 1 - bodyStart)).foldlM
                (fun c2 case_idx =>
                  if kindAt stmts case_idx ∈ ["case", "default"] then do
                    let caseSid ← sidAtE stmts case_idx
                    c2.add_edge p.2.sid caseSid
                  else Except.ok c2) c0 = .ok c' ∧ ContainsAll stmts c' := by
            intro c0 hc0
            refine foldlM_total (ContainsAll stmts) _ _ ?_ c0 hc0
            intro c2 case_idx hcase hc2
            split
            · obtain ⟨i, hi, hie⟩ := List.mem_range'.mp hcase
              have hlt : case_idx < stmts.length := by omega
              obtain ⟨sC, _, hmC, hsidC⟩ := sidAtE_ok hlt
              rw [hsidC, except_ok_bind]
              obtain ⟨r, hr, hkeys⟩ := add_edge_total (hc2 p.2 hp2) (hc2 sC hmC)
              exact ⟨r, hr, containsAll_preserve hc2 hkeys⟩
            · exact ⟨c2, rfl, hc2⟩
          cases hab : info.after_body with
          | none =>
            simp only [hab, except_ok_bind]
            exact hinner c hc
          | some a =>
            simp only [hab]
            have ha' : a < stmts.length := (hci _ _ hget).2.2 a hab
            obtain ⟨sA, _, hmA, hsidA⟩ := sidAtE_ok ha'
            rw [hsidA, except_ok_bind]
            obtain ⟨r1, hr1, hkeys1⟩ := add_edge_total (hc p.2 hp2) (hc sA hmA)
            rw [hr1, except_ok_bind]
            exact hinner r1 (containsAll_preserve hc hkeys1)

theorem doTailPass_total {stmts : List Statement} {ci : List (Nat × ControlInfo)}
    {dtm : List (Nat × Nat)}
    (hci : ∀ i c, dictGet? ci i = some c → ControlInfoBounded stmts.length c)
    (hdtm : ∀ p ∈ dtm, p.2 < stmts.length)
    (cfg : CFG) (hP : ContainsAll stmts cfg) :
    ∃ c', doTailPass stmts ci dtm cfg = .ok c' ∧ ContainsAll stmts c' := by
  unfold doTailPass
  refine foldlM_total (ContainsAll stmts) _ _ ?_ cfg hP
  intro c p hp hc
  cases hget : dictGet? ci p.1 with
  | none => exact ⟨c, rfl, hc⟩
  | some info =>
    simp only [hget]
    cases hbs : info.body_start with
    | none => exact ⟨c, rfl, hc⟩
    | some bodyStart =>
      simp only [hbs]
      have hbs' : bodyStart < stmts.length := (hci _ _ hget).1 bodyStart hbs
      have htail : p.2 < stmts.length := hdtm p hp
      obtain ⟨sT, _, hmT, hsidT⟩ := sidAtE_ok htail
      obtain ⟨sS, _, hmS, hsidS⟩ := sidAtE_ok hbs'
      rw [hsidT, except_ok_bind, hsidS, except_ok_bind]
      obtain ⟨r, hr, hkeys⟩ := add_edge_total (hc sT hmT) (hc sS hmS)
      exact ⟨r, hr, containsAll_preserve hc hkeys⟩

theorem breakEdges_total {stmts : List Statement} {ci : List (Nat × ControlInfo)}
    {dtm : List (Nat × Nat)}
    (hci : ∀ i c, dictGet? ci i = some c → ControlInfoBounded stmts.length c)
    (hdtm : ∀ k v, dictGet? dtm k = some v → v < stmts.length)
    (stack : List Nat) (stmt : Statement) (hm : stmt ∈ stmts)
    (c : CFG) (hc : ContainsAll stmts c) :
    ∃ c', breakEdges stmts ci dtm stack stmt c = .ok c' ∧ ContainsAll stmts c' := by
  unfold breakEdges
  split
  · cases hbt : breakTarget stmts ci dtm stack with
    | none => exact ⟨c, rfl, hc⟩
    | some ti =>
      simp only [hbt]
      have hti : ti < stmts.length := breakTarget_bound hci hdtm stack ti hbt
      obtain ⟨sT, _, hmT, hsidT⟩ := sidAtE_ok hti
      rw [hsidT, except_ok_bind]
      obtain ⟨r, hr, hkeys⟩ := add_edge_total (hc stmt hm) (hc sT hmT)
      exact ⟨r, hr, containsAll_preserve hc hkeys⟩
  · exact ⟨c, rfl, hc⟩

theorem continueEdges_total {stmts : List Statement} {dtm : List (Nat × Nat)}
    (hdtm : ∀ k v, dictGet? dtm k = some v → v < stmts.length)
    (stack : List Nat) (hstack : ∀ i ∈ stack, i < stmts.length)
    (stmt : Statement) (hm : stmt ∈ stmts)
    (c : CFG) (hc : ContainsAll stmts c) :
    ∃ c', continueEdges stmts dtm stack stmt c = .ok c' ∧ ContainsAll stmts c' := by
  unfold continueEdges
  split
  · cases hct : continueTarget stmts dtm stack with
    | none => exact ⟨c, rfl, hc⟩
    | some ti =>
      simp only [hct]
      have hti : ti < stmts.length := continueTarget_bound hdtm stack hstack ti hct
      obtain ⟨sT, _, hmT, hsidT⟩ := sidAtE_ok hti
      rw [hsidT, except_ok_bind]
      obtain ⟨r, hr, hkeys⟩ := add_edge_total (hc stmt hm) (hc sT hmT)
      exact ⟨r, hr, containsAll_preserve hc hkeys⟩
  · exact ⟨c, rfl, hc⟩

theorem gotoEdges_total {stmts : List Statement} {lm : List (String × Nat)}
    (hlm : ∀ p ∈ lm, ∃ s ∈ stmts, p.2 = s.sid)
    (kindName : String) (stmt : Statement) (hm : stmt ∈ stmts)
    (c : CFG) (hc : ContainsAll stmts c) :
    ∃ c', gotoEdges lm kindName stmt c = .ok c' ∧ ContainsAll stmts c' := by
  unfold gotoEdges
  split
  · cases htgt : stmt.target with
    | none => exact ⟨c, rfl, hc⟩
    | some tgt =>
      simp only [htgt]
      split
      · cases hget : dictGet? lm tgt with
        | none => exact ⟨c, rfl, hc⟩
        | some target_sid =>
          simp only [hget]
          obtain ⟨sT, hmT, hsT⟩ := hlm (tgt, target_sid) (dictGet?_mem hget)
          have hsT' : target_sid = sT.sid := hsT
          have hcT : dictContains c.nodes target_sid = true := by
            rw [hsT']; exact hc sT hmT
          obtain ⟨r, hr, hkeys⟩ := add_edge_total (hc stmt hm) hcT
          exact ⟨r, hr, containsAll_preserve hc hkeys⟩
      · exact ⟨c, rfl, hc⟩
  · exact ⟨c, rfl, hc⟩

theorem switchGotoEdges_total {stmts : List Statement} {lm : List (String × Nat)}
    (hlm : ∀ p ∈ lm, ∃ s ∈ stmts, p.2 = s.sid)
    (stmt : Statement) (hm : stmt ∈ stmts)
    (c : CFG) (hc : ContainsAll stmts c) :
    ∃ c', switchGotoEdges lm stmt c = .ok c' ∧ ContainsAll stmts c' := by
  unfold switchGotoEdges
  split
  · refine foldlM_total (ContainsAll stmts) _ _ ?_ c hc
    intro c2 tgt _ hc2
    cases hget : dictGet? lm tgt with
    | none => exact ⟨c2, rfl, hc2⟩
    | some target_sid =>
      simp only [hget]
      obtain ⟨sT, hmT, hsT⟩ := hlm (tgt, target_sid) (dictGet?_mem hget)
      have hsT' : target_sid = sT.sid := hsT
      have hcT : dictContains c2.nodes target_sid = true := by
        rw [hsT']; exact hc2 sT hmT
      obtain ⟨r, hr, hkeys⟩ := add_edge_total (hc2 stmt hm) hcT
      exact ⟨r, hr, containsAll_preserve hc2 hkeys⟩
  · exact ⟨c, rfl, hc⟩

theorem jumpStep_total {stmts : List Statement} {ci : List (Nat × ControlInfo)}
    {dtm : List (Nat × Nat)} {lm : List (String × Nat)}
    (hci : ∀ i c, dictGet? ci i = some c → ControlInfoBounded stmts.length c)
    (hdtm : ∀ k v, dictGet? dtm k = some v → v < stmts.length)
    (hlm : ∀ p ∈ lm, ∃ s ∈ stmts, p.2 = s.sid)
    (st : CFG × List Nat) (p : Nat × Statement) (hp : p ∈ stmts.enum)
    (hP : ContainsAll stmts st.1 ∧ ∀ i ∈ st.2, i < stmts.length) :
    ∃ st', jumpStep stmts ci dtm lm st p = .ok st' ∧
      (ContainsAll stmts st'.1 ∧ ∀ i ∈ st'.2, i < stmts.length) := by
  simp only [jumpStep]
  have hidx : p.1 < stmts.length := (mem_enum_facts hp).1
  have hm : p.2 ∈ stmts := (mem_enum_facts hp).2.2
  have hstack : ∀ i ∈ (if p.2.kind ∈ ["while", "for", "do", "switch"] ∧
      dictContains ci p.1 = true then p.1 :: st.2 else st.2), i < stmts.length := by
    split
    · intro i hi
      rcases List.mem_cons.mp hi with rfl | h
      · exact hidx
      · exact hP.2 i h
    · exact hP.2
  obtain ⟨c1, hc1, hP1⟩ := breakEdges_total hci hdtm
    (if p.2.kind ∈ ["while", "for", "do", "switch"] ∧ dictContains ci p.1 = true
      then p.1 :: st.2 else st.2) p.2 hm st.1 hP.1
  rw [hc1, except_ok_bind]
  obtain ⟨c2, hc2, hP2⟩ := continueEdges_total hdtm
    (if p.2.kind ∈ ["while", "for", "do", "switch"] ∧ dictContains ci p.1 = true
      then p.1 :: st.2 else st.2) hstack p.2 hm c1 hP1
  rw [hc2, except_ok_bind]
  obtain ⟨c3, hc3, hP3⟩ := gotoEdges_total hlm "goto" p.2 hm c2 hP2
  rw [hc3, except_ok_bind]
  obtain ⟨c4, hc4, hP4⟩ := gotoEdges_total hlm "if_goto" p.2 hm c3 hP3
  rw [hc4, except_ok_bind]
  obtain ⟨c5, hc5, hP5⟩ := switchGotoEdges_total hlm p.2 hm c4 hP4
  rw [hc5, except_ok_bind]
  refine ⟨(c5, popContexts ci p.1 (if p.2.kind ∈ ["while", "for", "do", "switch"] ∧
      dictContains ci p.1 = true then p.1 :: st.2 else st.2)), rfl, hP5, ?_⟩
  intro i hi
  exact hstack i (mem_popContexts _ i hi)

/-- `build_cfg` never raises: the block-pairing silently tolerates unmatched
markers and every internal `add_edge` endpoint exists (`ContainsAll`), so the
builder succeeds on every statement list whatsoever. -/
theorem build_cfg_total (stmts : List Statement) : ∃ cfg, build_cfg stmts = .ok cfg := by
  by_cases hemp : (initialNodes stmts).isEmpty = true
  · exact ⟨⟨[], none, none⟩, by simp only [build_cfg]; rw [if_pos hemp]⟩
  · have hne : stmts ≠ [] := by
      intro hcon
      exact hemp (by rw [hcon]; rfl)
    have hpos : 0 < stmts.length := List.length_pos.mpr hne
    have hexit : stmts.length - 1 < stmts.length := by omega
    obtain ⟨s0, _, _, h0⟩ := sidAtE_ok hpos
    obtain ⟨s1, _, _, h1⟩ := sidAtE_ok hexit
    have hci := fun i c h => @buildControlInfo_bounded stmts i c h
    have hdtm : ∀ k v,
        dictGet? (buildDoTail stmts (buildBlockPairs stmts)
          (buildBlockOwner stmts (buildBlockPairs stmts))
          (buildControlInfo stmts (buildBlockPairs stmts))).1 k = some v →
        v < stmts.length := by
      intro k v h
      exact buildDoTail_bound (k, v) (dictGet?_mem h)
    have hdtm' : ∀ p ∈ (buildDoTail stmts (buildBlockPairs stmts)
        (buildBlockOwner stmts (buildBlockPairs stmts))
        (buildControlInfo stmts (buildBlockPairs stmts))).1, p.2 < stmts.length :=
      fun p hp => buildDoTail_bound p hp
    have hlm := fun p hp => @buildLabelMap_sids stmts p hp
    have hP0 : ContainsAll stmts ⟨initialNodes stmts, some s0.sid, some s1.sid⟩ :=
      fun s hs => initialNodes_contains s hs
    obtain ⟨c1, hc1, hP1⟩ := sequentialPass_total _ hP0
    obtain ⟨c2, hc2, hP2⟩ := branchPass_total hci c1 hP1
    obtain ⟨c3, hc3, hP3⟩ := elseJoinPass_total hci ["if", "else_if"] c2 hP2
    obtain ⟨c4, hc4, hP4⟩ := elseJoinPass_total hci ["else_if", "else"] c3 hP3
    obtain ⟨c5, hc5, hP5⟩ := loopPass_total hci c4 hP4
    obtain ⟨c6, hc6, hP6⟩ := switchPass_total hci c5 hP5
    obtain ⟨c7, hc7, hP7⟩ := doTailPass_total hci hdtm' c6 hP6
    obtain ⟨res, hres, hPres⟩ := foldlM_total
      (fun st : CFG × List Nat => ContainsAll stmts st.1 ∧ ∀ i ∈ st.2, i < stmts.length)
      _ stmts.enum
      (fun st p hp hPst => jumpStep_total hci hdtm hlm st p hp hPst)
      (c7, []) ⟨hP7, fun i hi => absurd hi (List.not_mem_nil i)⟩
    refine ⟨res.1, ?_⟩
    simp only [build_cfg]
    rw [if_neg hemp]
    rw [h0, except_ok_bind, h1, except_ok_bind, hc1, except_ok_bind, hc2, except_ok_bind,
      hc3, except_ok_bind, hc4, except_ok_bind, hc5, except_ok_bind, hc6, except_ok_bind,
      hc7, except_ok_bind, hres, except_ok_bind]

/-! ## Theorems settling the claims -/

/-- C1: for `if (c1) {A} else if (c2) {B} else {C}; D` (`progIf`), the CFG
built by `build_cfg` has edges from the last statement of each branch body
(the closing `block_end` markers 3, 7, 11 — synthetic markers are CFG nodes
per the data model) to the join `D` (id 12), and no edge from `A`-end (3) or
`B`-end (7) into the `else_if` header (4) or the `else` header (8): the join
is found by walking the chain via `after_body`, and the mistaken fallthrough
edges into the chain heads are removed. -/
theorem if_else_join_correct :
    edgeCheck progIf 3 12 = true ∧ edgeCheck progIf 7 12 = true ∧
    edgeCheck progIf 11 12 = true ∧
    edgeCheck progIf 3 4 = false ∧ edgeCheck progIf 3 8 = false ∧
    edgeCheck progIf 7 4 = false ∧ edgeCheck progIf 7 8 = false := by
  decide

/-- C2: for `while (c) { S }; D` (`progWhile`), the CFG built by `build_cfg`
has the header→body-start edge (0→1), the false-branch header→`D` edge
(0→5), and the back-edge from the body end to the header (4→0); the body-end
fallthrough into `D` is removed (no 4→5), and the last non-synthetic body
statement (3) has no edge to `D` either. -/
theorem while_loop_edges_correct :
    edgeCheck progWhile 0 1 = true ∧ edgeCheck progWhile 0 5 = true ∧
    edgeCheck progWhile 4 0 = true ∧
    edgeCheck progWhile 4 5 = false ∧ edgeCheck progWhile 3 5 = false := by
  decide

/-- C3: for `do { S } while (c); D` (`progDo`), the CFG built by `build_cfg`
routes the `continue` (3) to the trailing `while` tail node (6) and not to
the `do` header (0), routes the `break` (4) to `D` (7, the statement after
the tail), and has the back-edge from the tail (6) to the first statement of
the do body (the `block_start`, id 1). -/
theorem do_while_tail_routing_correct :
    edgeCheck progDo 3 6 = true ∧ edgeCheck progDo 3 0 = false ∧
    edgeCheck progDo 4 7 = true ∧ edgeCheck progDo 6 1 = true := by
  decide

/-- C4: `build_cfg []` does return the CFG with zero nodes and
`entry = exit = None`, but the three analyses applied to the empty program
do **not** return empty result maps: each is a stub that raises
`NotImplementedError` (code bug relative to the claim). -/
theorem empty_program_behaviour :
    build_cfg [] = .ok ⟨[], none, none⟩ ∧
    compute_reaching_definitions ⟨[], none, none⟩ =
      .error (.notImplemented "Reaching definitions analysis not implemented yet.") ∧
    compute_live_variables ⟨[], none, none⟩ =
      .error (.notImplemented "Live variable analysis not implemented yet.") ∧
    compute_pointer_analysis ⟨[], "unknown", none⟩ =
      .error (.notImplemented "Pointer analysis not implemented yet.") :=
  ⟨rfl, rfl, rfl, rfl⟩

/-- C5: on the CFG of `x = 1; y = x; x = 2;` (`progStraight`),
`compute_reaching_definitions` does not return the claimed OUT sets — it is
a stub that raises `NotImplementedError` (code bug relative to the claim). -/
theorem reaching_definitions_straight_line_stub :
    Except.map compute_reaching_definitions (build_cfg progStraight) =
      .ok (.error (.notImplemented "Reaching definitions analysis not implemented yet.")) :=
  rfl

/-- C10: each of the four analysis entry points unconditionally raises
`NotImplementedError` on every input and never returns a result. -/
theorem analysis_entry_points_not_implemented :
    (∀ nodes predecessors successors direction transfer,
      solve_worklist nodes predecessors successors direction transfer =
        .error (.notImplemented "Worklist solver not implemented yet.")) ∧
    (∀ cfg, compute_reaching_definitions cfg =
      .error (.notImplemented "Reaching definitions analysis not implemented yet.")) ∧
    (∀ cfg, compute_live_variables cfg =
      .error (.notImplemented "Live variable analysis not implemented yet.")) ∧
    (∀ program, compute_pointer_analysis program =
      .error (.notImplemented "Pointer analysis not implemented yet.")) :=
  ⟨fun _ _ _ _ _ => rfl, fun _ => rfl, fun _ => rfl, fun _ => rfl⟩

/-- C6 counterexample: `remove_edge` with an endpoint that is not a node does
**not** raise — on the empty CFG, `remove_edge(0, 1)` silently returns the
CFG unchanged, refuting the claim that both edge mutators fail loudly. -/
theorem remove_edge_unknown_id_silent :
    CFG.remove_edge ⟨[], none, none⟩ 0 1 = .ok ⟨[], none, none⟩ :=
  rfl

/-- C6 amended: when either endpoint of the edge is not a node, `add_edge`
raises `KeyError`, while `remove_edge` silently returns the CFG unchanged
(it does not raise). -/
theorem edge_mutation_unknown_id :
    ∀ (cfg : CFG) (s t : Nat),
      ¬(dictContains cfg.nodes s = true ∧ dictContains cfg.nodes t = true) →
      cfg.add_edge s t = .error "CFG edge endpoints must exist in nodes." ∧
      cfg.remove_edge s t = .ok cfg := by
  intro cfg s t h
  constructor
  · simp only [CFG.add_edge, if_pos h]
  · simp only [CFG.remove_edge, if_pos h]

/-- Witness for C6 amended at the empty CFG and endpoints `(0, 1)`. -/
theorem edge_mutation_unknown_id_witness :
    CFG.add_edge ⟨[], none, none⟩ 0 1 = .error "CFG edge endpoints must exist in nodes." ∧
    CFG.remove_edge ⟨[], none, none⟩ 0 1 = .ok ⟨[], none, none⟩ :=
  edge_mutation_unknown_id ⟨[], none, none⟩ 0 1 (by decide)

/-- C8: in the sequential-edge stage of `build_cfg` (the only stage that adds
fall-through edges; later structured-control passes may redirect them), a
statement with an immediate textual successor gets the fall-through edge to
it **iff** its kind is not in `{return, break, continue, goto}`: starting
from `build_cfg`'s initial edge-free node map, after `sequentialPass` the
edge `stmts[i].sid → stmts[i+1].sid` exists exactly when `stmts[i].kind` is
not a jump kind (statement ids assumed distinct, as the data model
requires). -/
theorem sequential_edges :
    ∀ (stmts : List Statement) (e x : Option Nat) (cfg' : CFG),
      (stmts.map Statement.sid).Nodup →
      sequentialPass stmts ⟨initialNodes stmts, e, x⟩ = .ok cfg' →
      ∀ i, i + 1 < stmts.length →
        (cfg'.hasEdge (sidAt stmts i) (sidAt stmts (i + 1)) = true ↔
          kindAt stmts i ∉ jumpKinds) := by
  intro stmts e x cfg' hnodup hpass i hi
  have hia : stmts.get? i = some (stmts.get ⟨i, by omega⟩) := List.get?_eq_get _
  have hib : stmts.get? (i + 1) = some (stmts.get ⟨i + 1, hi⟩) := List.get?_eq_get _
  have hz := foldlM_sequentialStep_hasEdge (stmts.zip stmts.tail) _ _ hpass
    (sidAt stmts i) (sidAt stmts (i + 1))
  rw [hz, initial_hasEdge]
  have hsidA : sidAt stmts i = (stmts.get ⟨i, by omega⟩).sid := by
    unfold sidAt; rw [hia]; rfl
  have hsidB : sidAt stmts (i + 1) = (stmts.get ⟨i + 1, hi⟩).sid := by
    unfold sidAt; rw [hib]; rfl
  have hkind : kindAt stmts i = (stmts.get ⟨i, by omega⟩).kind := by
    unfold kindAt; rw [hia]; rfl
  constructor
  · rintro (hfalse | ⟨p, hp, hnj, hx, hy⟩)
    · cases hfalse
    · obtain ⟨j, hj1, hj2⟩ := mem_zip_tail stmts p hp
      have hji : j = i := sid_index_inj hnodup hj1 hia (by rw [hx, hsidA])
      subst hji
      rw [hj1] at hia
      rw [hkind, ← Option.some.inj hia]
      exact hnj
  · intro hnj
    refine Or.inr ⟨(stmts.get ⟨i, by omega⟩, stmts.get ⟨i + 1, hi⟩), ?_, ?_, ?_, ?_⟩
    · exact get?_zip_tail stmts i _ _ hia hib
    · rw [← hkind]; exact hnj
    · exact hsidA.symm
    · exact hsidB.symm

/-- Witness for C8 on `progStraight` at position 0: an `assign` statement is
not a jump kind and gets the fall-through edge `1 → 2`. -/
theorem sequential_edges_witness :
    ((sequentialPass progStraight ⟨initialNodes progStraight, some 1, some 3⟩).toOption.getD
        ⟨[], none, none⟩).hasEdge (sidAt progStraight 0) (sidAt progStraight 1) = true :=
  (sequential_edges progStraight (some 1) (some 3) _ (by decide) rfl 0 (by decide)).mpr
    (by decide)

/-- C9: every CFG produced by `build_cfg`, and every CFG after any further
sequence of `add_edge`/`remove_edge` calls, satisfies edge symmetry
(`b ∈ a.successors ⟺ a ∈ b.predecessors`) and has duplicate-free successor
and predecessor lists; moreover inserting an already-present edge is a no-op
(for any CFG with duplicate-free node keys satisfying the two invariants,
`add_edge` returns the CFG unchanged). -/
theorem edge_invariants_maintained :
    (∀ (stmts : List Statement) (ops : List EdgeOp) (cfg0 cfg' : CFG),
      build_cfg stmts = .ok cfg0 → applyEdgeOps cfg0 ops = .ok cfg' →
      NodupEdges cfg' ∧ EdgeSymm cfg') ∧
    (∀ (cfg : CFG) (s t : Nat),
      (cfg.nodes.map Prod.fst).Nodup → NodupEdges cfg → EdgeSymm cfg →
      cfg.hasEdge s t = true → cfg.add_edge s t = .ok cfg) := by
  constructor
  · intro stmts ops cfg0 cfg' h0 hops
    exact edgeInvariant_applyEdgeOps ops cfg0 cfg' (edgeInvariant_build_cfg h0) hops
  · intro cfg s t hkeys hnd hsym h
    exact add_edge_noop hkeys ⟨hnd, hsym⟩ h

/-- Witness for C9 on the CFG of the two-statement program
`[assign; assign]` (with its edge `0 → 1`) and an empty op list, plus the
no-op of re-adding the existing edge `0 → 1`. -/
theorem edge_invariants_maintained_witness :
    (NodupEdges ⟨[(0, ⟨mkStmt 0 "assign", [1], []⟩), (1, ⟨mkStmt 1 "assign", [], [0]⟩)],
        some 0, some 1⟩ ∧
      EdgeSymm ⟨[(0, ⟨mkStmt 0 "assign", [1], []⟩), (1, ⟨mkStmt 1 "assign", [], [0]⟩)],
        some 0, some 1⟩) ∧
    CFG.add_edge ⟨[(0, ⟨mkStmt 0 "assign", [1], []⟩), (1, ⟨mkStmt 1 "assign", [], [0]⟩)],
        some 0, some 1⟩ 0 1 =
      .ok ⟨[(0, ⟨mkStmt 0 "assign", [1], []⟩), (1, ⟨mkStmt 1 "assign", [], [0]⟩)],
        some 0, some 1⟩ := by
  have h1 := edge_invariants_maintained.1 [mkStmt 0 "assign", mkStmt 1 "assign"] []
    ⟨[(0, ⟨mkStmt 0 "assign", [1], []⟩), (1, ⟨mkStmt 1 "assign", [], [0]⟩)], some 0, some 1⟩
    ⟨[(0, ⟨mkStmt 0 "assign", [1], []⟩), (1, ⟨mkStmt 1 "assign", [], [0]⟩)], some 0, some 1⟩
    rfl rfl
  exact ⟨h1, edge_invariants_maintained.2 _ 0 1 (by decide) h1.1 h1.2 (by decide)⟩

/-- C7 counterexample: on the unbalanced marker stream consisting of a single
`block_start`, `build_cfg` does **not** raise — it returns a one-node CFG,
refuting the claim that unbalanced markers are a surfaced error. -/
theorem build_cfg_unbalanced_no_error :
    markersBalanced progUnbalanced = false ∧
    build_cfg progUnbalanced = .ok ⟨[(0, ⟨mkMarker 0 "block_start", [], []⟩)], some 0, some 0⟩ := by
  constructor
  · decide
  · rfl

/-- C7 amended: on statement lists with unbalanced `block_start`/`block_end`
markers `build_cfg` does **not** raise: `_build_block_pairs` skips a
`block_end` with no open `block_start` and leaves unmatched `block_start`s
unpaired, and `build_cfg` returns a CFG (it in fact succeeds on every
statement list, see `build_cfg_total`). -/
theorem build_cfg_unbalanced_ok :
    ∀ (stmts : List Statement), markersBalanced stmts = false →
      ∃ cfg, build_cfg stmts = .ok cfg :=
  fun stmts _ => build_cfg_total stmts

/-- Witness for C7 amended at the single unmatched `block_start` stream. -/
theorem build_cfg_unbalanced_ok_witness :
    markersBalanced progUnbalanced = false ∧
    ∃ cfg, build_cfg progUnbalanced = .ok cfg :=
  ⟨by decide, build_cfg_unbalanced_ok progUnbalanced (by decide)⟩

end StaticProgramAnalyzer
